import Mathlib

/-!
# Verification of the esp-open-rtos 1-Wire driver (`extras/onewire/onewire.c`)

This file gives a shallow embedding of the protocol engine of the 1-Wire
driver and proves/refutes the specification claims about it.

Conventions of the embedding:
* C `uint8_t` / `uint16_t` values are `Nat`s together with `< 256` / `< 65536`
  bounds (and explicit `% 256` where the C arithmetic wraps);
* byte buffers (`const uint8_t *` + length) are `List Nat`;
* the hardware bus is an explicit environment: the bit-level functions are
  embedded as the *trace of external calls* they perform (gpio writes/reads,
  microsecond delays, critical-section enter/exit), with `gpio_read` results
  supplied by an oracle; the search engine is embedded over an abstract bus
  interface (`BusModel`) which a simulated 1-Wire bus (`SimBus`) instantiates.
-/

namespace OneWire

/-! ## Integrity codecs (onewire.c lines 306-434) -/

/-- The 256-entry Dallas CRC-8 lookup table `dscrc_table` (onewire.c lines 313-329). -/
def dscrc_table : List Nat :=
  [  0, 94,188,226, 97, 63,221,131,194,156,126, 32,163,253, 31, 65,
   157,195, 33,127,252,162, 64, 30, 95,  1,227,189, 62, 96,130,220,
    35,125,159,193, 66, 28,254,160,225,191, 93,  3,128,222, 60, 98,
   190,224,  2, 92,223,129, 99, 61,124, 34,192,158, 29, 67,161,255,
    70, 24,250,164, 39,121,155,197,132,218, 56,102,229,187, 89,  7,
   219,133,103, 57,186,228,  6, 88, 25, 71,165,251,120, 38,196,154,
   101, 59,217,135,  4, 90,184,230,167,249, 27, 69,198,152,122, 36,
   248,166, 68, 26,153,199, 37,123, 58,100,134,216, 91,  5,231,185,
   140,210, 48,110,237,179, 81, 15, 78, 16,242,172, 47,113,147,205,
    17, 79,173,243,112, 46,204,146,211,141,111, 49,178,236, 14, 80,
   175,241, 19, 77,206,144,114, 44,109, 51,209,143, 12, 82,176,238,
    50,108,142,208, 83, 13,239,177,240,174, 76, 18,145,207, 45,115,
   202,148,118, 40,171,245, 23, 73,  8, 86,180,234,105, 55,213,139,
    87,  9,235,181, 54,104,138,212,149,203, 41,119,244,170, 72, 22,
   233,183, 85, 11,136,214, 52,106, 43,117,151,201, 74, 20,246,168,
   116, 42,200,150, 21, 75,169,247,182,232, 10, 84,215,137,107, 53]

/-- Table-driven `onewire_crc8` (onewire.c lines 342-350):
`crc = dscrc_table[crc ^ *addr++]` per input byte, starting from 0. -/
def onewire_crc8_table (addr : List Nat) : Nat :=
  addr.foldl (fun crc b => dscrc_table.getD (crc ^^^ b) 0) 0

/-- The 8 shift rounds of the bitwise CRC-8 inner loop (onewire.c lines 363-368):
`mix = (crc ^ inbyte) & 0x01; crc >>= 1; if (mix) crc ^= 0x8C; inbyte >>= 1`. -/
def crc8_rounds : Nat → Nat → Nat → Nat
  | 0, crc, _ => crc
  | i + 1, crc, inbyte =>
      let mix := (crc ^^^ inbyte) &&& 0x01
      let crc := crc >>> 1
      let crc := if mix != 0 then crc ^^^ 0x8C else crc
      crc8_rounds i crc (inbyte >>> 1)

/-- Bitwise `onewire_crc8` (onewire.c lines 356-371): polynomial 0x8C applied
LSB-first across 8 shift rounds per input byte, starting from 0. -/
def onewire_crc8 (addr : List Nat) : Nat :=
  addr.foldl (fun crc inbyte => crc8_rounds 8 crc inbyte) 0

/-- The 16-entry odd-parity table of `onewire_crc16` (onewire.c lines 414-415). -/
def oddparity : List Nat := [0, 1, 1, 0, 1, 0, 0, 1, 1, 0, 0, 1, 0, 1, 1, 0]

/-- Embedding of `onewire_crc16` (onewire.c lines 412-434).  The `input` list stands for the
`input`/`len` pair; `crc` is the starting value (a `uint16_t`). -/
def onewire_crc16 (input : List Nat) (crc : Nat) : Nat :=
  input.foldl (fun crc b =>
    let cdata := (b ^^^ crc) &&& 0xff
    let crc := crc >>> 8
    let crc :=
      if (oddparity.getD (cdata &&& 0x0F) 0) ^^^ (oddparity.getD (cdata >>> 4) 0) != 0 then
        crc ^^^ 0xC001
      else crc
    let cdata := cdata <<< 6
    let crc := crc ^^^ cdata
    let cdata := cdata <<< 1
    let crc := crc ^^^ cdata
    crc) crc

/-- Embedding of `onewire_check_crc16` (onewire.c lines 394-398): `crc = ~onewire_crc16(input, len, crc)`
(bitwise complement on a `uint16_t`, i.e. XOR with 0xFFFF given the value is < 2^16),
then compare the low byte with `inverted_crc[0]` and the high byte with `inverted_crc[1]`. -/
def onewire_check_crc16 (input : List Nat) (inverted_crc : List Nat) (crc : Nat) : Bool :=
  let crc := (onewire_crc16 input crc) ^^^ 0xFFFF
  (crc &&& 0xFF) == inverted_crc.getD 0 0 && (crc >>> 8) == inverted_crc.getD 1 0

/-! ## Bit-level transport and reset, embedded as traces of external calls
(onewire.c lines 20-78).  `gpio_read` results are supplied by an oracle. -/

/-- Pin modes passed to `gpio_enable`. -/
inductive GpioMode
  | input
  | output
  | outOpenDrain
deriving DecidableEq

/-- One external call made by the driver: pin configuration, pin write,
microsecond delay, pin read, or critical-section enter/exit
(`taskENTER_CRITICAL`/`taskEXIT_CRITICAL`). -/
inductive Ev
  | gpioEnable (mode : GpioMode)
  | gpioWrite (level : Nat)
  | delayUs (us : Nat)
  | gpioRead
  | enterCritical
  | exitCritical
deriving DecidableEq

/-- The trace of `onewire_write_bit(pin, v)` (onewire.c lines 46-63).
The C code branches on `v & 1`. -/
def onewire_write_bit_events (v : Nat) : List Ev :=
  if v &&& 1 != 0 then
    [.enterCritical, .gpioWrite 0, .delayUs 10, .gpioWrite 1, .exitCritical, .delayUs 55]
  else
    [.enterCritical, .gpioWrite 0, .delayUs 65, .gpioWrite 1, .exitCritical, .delayUs 5]

/-- The trace of `onewire_read_bit(pin)` (onewire.c lines 65-78); the sampled
level is returned by the `gpioRead` in the middle and does not affect the trace. -/
def onewire_read_bit_events : List Ev :=
  [.enterCritical, .gpioWrite 0, .delayUs 3, .gpioWrite 1, .delayUs 10, .gpioRead,
   .exitCritical, .delayUs 53]

/-- The idle-wait loop of `onewire_reset` (onewire.c lines 28-31):
`do { if (--retries == 0) return 0; sdk_os_delay_us(2); } while (!gpio_read(pin));`.
`reads k` is the result of the k-th `gpio_read` of the whole function.
Returns the events of the loop and `none` when the retry budget ran out
(the early `return 0`), otherwise `some k'` with `k'` the next read index. -/
def onewire_reset_wait (reads : Nat → Bool) : Nat → Nat → List Ev × Option Nat
  | 0, k => ([], some k)
  | retries + 1, k =>
      if retries = 0 then ([], none)
      else if reads k then ([.delayUs 2, .gpioRead], some (k + 1))
      else
        let rest := onewire_reset_wait reads retries (k + 1)
        ([.delayUs 2, .gpioRead] ++ rest.1, rest.2)

/-- Embedding of `onewire_reset(pin)` (onewire.c lines 20-44) as (presence result, trace).
`reads k` is the result of the k-th `gpio_read` call; `retries` starts at 125. -/
def onewire_reset (reads : Nat → Bool) : Bool × List Ev :=
  let pre := [Ev.gpioEnable .outOpenDrain, Ev.gpioWrite 1]
  match onewire_reset_wait reads 125 0 with
  | (evs, none) => (false, pre ++ evs)
  | (evs, some k) =>
      (!reads k,
       pre ++ evs ++
         [Ev.gpioWrite 0, Ev.delayUs 480, Ev.enterCritical, Ev.gpioWrite 1,
          Ev.delayUs 70, Ev.gpioRead, Ev.exitCritical, Ev.delayUs 410])

/-- Total of the microsecond delays in a trace. -/
def delaySum (evs : List Ev) : Nat :=
  evs.foldl (fun s e => match e with | .delayUs n => s + n | _ => s) 0

/-- Is the event a critical-section enter/exit? -/
def isCritEv : Ev → Bool
  | .enterCritical => true
  | .exitCritical => true
  | _ => false

/-! ## The search engine (onewire.c lines 150-304) -/

/-- The search state `onewire_search_t`: the 8-byte working ROM buffer and
the resume bookkeeping.  `rom_no` holds the 8 bytes, least significant first. -/
structure onewire_search_t where
  rom_no : List Nat
  last_discrepancy : Nat
  last_device_found : Bool
deriving DecidableEq

/-- The bus operations `onewire_search_next` performs, over an abstract bus
state `σ`: `onewire_reset`, `onewire_write` (a byte), `onewire_read_bit` and
`onewire_write_bit`.  The search engine is embedded over this interface so
that its state manipulation can be proved for every bus behaviour. -/
structure BusModel (σ : Type) where
  reset : σ → σ × Bool
  write : σ → Nat → σ
  read_bit : σ → σ × Bool
  write_bit : σ → Bool → σ

/-- Embedding of `onewire_search_start` (onewire.c lines 150-154): `memset(search, 0, ...)`,
i.e. the all-zero search state. -/
def onewire_search_start : onewire_search_t :=
  { rom_no := List.replicate 8 0, last_discrepancy := 0, last_device_found := false }

/-- Embedding of `onewire_search_prefix` (onewire.c lines 159-169): seed `rom_no[0]` with the
family code, zero the other bytes, set `last_discrepancy = 64` and clear
`last_device_found`.  (The C function overwrites every field of the passed
struct, so it is modelled as producing the resulting state.) -/
def onewire_search_prefix (family_code : Nat) : onewire_search_t :=
  { rom_no := family_code :: List.replicate 7 0,
    last_discrepancy := 64,
    last_device_found := false }

/-- The do/while search loop of `onewire_search_next` (onewire.c lines 217-271),
carrying the C locals.  One iteration: read a bit and its complement; break if
both are 1; otherwise choose `search_direction` (agreeing bit, or replay
`rom_no` before `last_discrepancy`, or 1 at `last_discrepancy`, else 0,
recording `last_zero` when a 0 is chosen at a discrepancy), store the bit in
`rom_no` (`&= ~rom_byte_mask` on a `uint8_t` is `&&& (mask ^^^ 255)`), write it
to the bus, and advance `id_bit_number`/`rom_byte_mask`/`rom_byte_number`
(`rom_byte_mask <<= 1` wraps at 8 bits, hence `% 256`); the loop runs while
`rom_byte_number < 8`.  `fuel` bounds the iteration count; 64 always suffices.
Returns (bus state, `id_bit_number`, `last_zero`, `rom_no`). -/
def searchLoop {σ : Type} (B : BusModel σ) (last_discrepancy : Nat) :
    Nat → σ → Nat → Nat → Nat → Nat → List Nat → σ × Nat × Nat × List Nat
  | 0, s, id_bit_number, last_zero, _, _, rom_no => (s, id_bit_number, last_zero, rom_no)
  | fuel + 1, s, id_bit_number, last_zero, rom_byte_number, rom_byte_mask, rom_no =>
      let r1 := B.read_bit s
      let r2 := B.read_bit r1.1
      let s := r2.1
      let id_bit := r1.2
      let cmp_id_bit := r2.2
      if id_bit && cmp_id_bit then
        (s, id_bit_number, last_zero, rom_no)
      else
        let dirlz : Bool × Nat :=
          if id_bit != cmp_id_bit then (id_bit, last_zero)
          else
            let search_direction :=
              if id_bit_number < last_discrepancy then
                ((rom_no.getD rom_byte_number 0) &&& rom_byte_mask) != 0
              else
                id_bit_number == last_discrepancy
            (search_direction, if !search_direction then id_bit_number else last_zero)
        let search_direction := dirlz.1
        let last_zero := dirlz.2
        let rom_no :=
          if search_direction then
            rom_no.set rom_byte_number ((rom_no.getD rom_byte_number 0) ||| rom_byte_mask)
          else
            rom_no.set rom_byte_number ((rom_no.getD rom_byte_number 0) &&& (rom_byte_mask ^^^ 255))
        let s := B.write_bit s search_direction
        let id_bit_number := id_bit_number + 1
        let rom_byte_mask := (rom_byte_mask <<< 1) % 256
        let bn : Nat × Nat :=
          if rom_byte_mask == 0 then (rom_byte_number + 1, 1) else (rom_byte_number, rom_byte_mask)
        if bn.1 < 8 then
          searchLoop B last_discrepancy fuel s id_bit_number last_zero bn.1 bn.2 rom_no
        else
          (s, id_bit_number, last_zero, rom_no)

/-- The address assembly of `onewire_search_next` (onewire.c lines 296-300):
`for (i = 7; i >= 0; i--) addr = (addr << 8) | rom_no[i]`. -/
def assembleAddr (rom_no : List Nat) : Nat :=
  (List.range 8).foldl (fun addr i => (addr <<< 8) ||| rom_no.getD (7 - i) 0) 0

/-- Embedding of `onewire_search_next` (onewire.c lines 184-304) over an abstract bus.
Returns (bus state, updated search state, result); `none` is `ONEWIRE_NONE`.
Mirrors the C control flow: skip the walk when `last_device_found`; reset the
bus and bail out (resetting the state) on no presence; issue the 0xF0 search
command; run the bit walk; treat the walk as successful iff
`!(id_bit_number < 65)`; reset the state and return none if unsuccessful or if
`rom_no[0]` is zero; otherwise commit `last_discrepancy`/`last_device_found`
and return the assembled address. -/
def onewire_search_next {σ : Type} (B : BusModel σ) (s : σ) (search : onewire_search_t) :
    σ × onewire_search_t × Option Nat :=
  if !search.last_device_found then
    let r := B.reset s
    if !r.2 then
      (r.1, { search with last_discrepancy := 0, last_device_found := false }, none)
    else
      let s := B.write r.1 0xF0
      let lr := searchLoop B search.last_discrepancy 64 s 1 0 0 1 search.rom_no
      let s := lr.1
      let id_bit_number := lr.2.1
      let last_zero := lr.2.2.1
      let rom_no := lr.2.2.2
      if !(id_bit_number < 65) then
        let last_discrepancy := last_zero
        let last_device_found :=
          if last_discrepancy == 0 then true else search.last_device_found
        if rom_no.getD 0 0 == 0 then
          (s, { rom_no := rom_no, last_discrepancy := 0, last_device_found := false }, none)
        else
          (s, { rom_no := rom_no, last_discrepancy := last_discrepancy,
                last_device_found := last_device_found },
           some (assembleAddr rom_no))
      else
        (s, { rom_no := rom_no, last_discrepancy := 0, last_device_found := false }, none)
  else
    (s, { search with last_discrepancy := 0, last_device_found := false }, none)

/-! ## A simulated 1-Wire bus presenting a fixed set of devices

Claim C1 is about a bus with a fixed set of 64-bit device addresses.  The
1-Wire electrical semantics: during a search step every still-participating
device answers the two read slots with its current address bit and that bit's
complement (the line wire-ANDs all answers), and a written direction bit
deselects every device whose bit disagrees.  `SimBus` realizes exactly this:
`participants` is the set of devices still answering and `pos` the current bit
position; reads come in (bit, complement) pairs, tracked by `phase`. -/
structure SimBus where
  devices : List Nat
  participants : List Nat
  pos : Nat
  phase : Bool
deriving DecidableEq

/-- Bus reset: all devices answer the presence pulse and re-join the search
(the subsequent 0xF0 command addresses all of them). -/
def simReset (s : SimBus) : SimBus × Bool :=
  ({ s with participants := s.devices, pos := 0, phase := false }, !s.devices.isEmpty)

/-- A read slot: wire-AND of the participants' current address bits
(first read of a pair), then of their complements (second read). -/
def simReadBit (s : SimBus) : SimBus × Bool :=
  if s.phase then
    ({ s with phase := false }, s.participants.all fun a => !a.testBit s.pos)
  else
    ({ s with phase := true }, s.participants.all fun a => a.testBit s.pos)

/-- A written direction bit deselects the disagreeing devices and moves to the
next bit position. -/
def simWriteBit (s : SimBus) (d : Bool) : SimBus :=
  { s with participants := s.participants.filter fun a => a.testBit s.pos == d,
           pos := s.pos + 1, phase := false }

/-- The `BusModel` of the simulated bus (command bytes do not change it). -/
def simBusModel : BusModel SimBus :=
  { reset := simReset, write := fun s _ => s, read_bit := simReadBit, write_bit := simWriteBit }

/-- Run `n` successive `onewire_search_next` calls on the simulated bus,
collecting the results. -/
def searchRun : Nat → SimBus → onewire_search_t → List (Option Nat)
  | 0, _, _ => []
  | n + 1, bus, st =>
      let r := onewire_search_next simBusModel bus st
      r.2.2 :: searchRun n r.1 r.2.1

/-- A trivial bus on which every read returns 1 (high line): used to exercise
the abort branch of the walk. -/
def unitBus : BusModel Unit :=
  { reset := fun _ => ((), true), write := fun _ _ => (),
    read_bit := fun _ => ((), true), write_bit := fun _ _ => () }

/-- One search-state operation, for stating state invariants over arbitrary
call sequences: `next` runs `onewire_search_next` against a simulated bus
holding the given devices. -/
inductive SearchOp
  | start
  | seedFamily (family_code : Nat)
  | next (devices : List Nat)

/-- Apply one `SearchOp` to a search state. -/
def applyOp (st : onewire_search_t) : SearchOp → onewire_search_t
  | .start => onewire_search_start
  | .seedFamily fc => onewire_search_prefix fc
  | .next devices =>
      (onewire_search_next simBusModel ⟨devices, [], 0, false⟩ st).2.1

/-- Apply a sequence of `SearchOp`s, first to last. -/
def applyOps (st : onewire_search_t) (ops : List SearchOp) : onewire_search_t :=
  ops.foldl applyOp st

/-! ## Abstract view of the bit walk (used to state and prove the search
properties; the connection with `searchLoop` is proved, not assumed). -/

/-- Addresses `a` and `b` have the same bits strictly below position `k`. -/
def agreeBelow (a b k : Nat) : Prop := ∀ i < k, a.testBit i = b.testBit i

instance (a b k : Nat) : Decidable (agreeBelow a b k) :=
  inferInstanceAs (Decidable (∀ i < k, a.testBit i = b.testBit i))

/-- The search order on addresses: the bit walk emits bit 0 first, and at a
discrepancy the 0 branch is taken before the 1 branch, so `a` comes before `b`
iff at the lowest bit where they differ `a` has 0. -/
def lexLt (a b : Nat) : Prop :=
  ∃ j < 64, agreeBelow a b j ∧ a.testBit j = false ∧ b.testBit j = true

instance (a b : Nat) : Decidable (lexLt a b) :=
  inferInstanceAs (Decidable (∃ j < 64, _ ∧ _ ∧ _))

/-- Position `k` is a "last zero" candidate for address `a` on bus `D`:
`a` has a 0 bit there and some device shares `a`'s bits below `k` but has a 1
there (i.e. the 1 branch at `k` is still unexplored). -/
def altAt (D : List Nat) (a k : Nat) : Prop :=
  a.testBit k = false ∧ ∃ b ∈ D, agreeBelow b a k ∧ b.testBit k = true

/-- Predicate stating that `ld` is the `last_discrepancy` value the search records after returning
address `a`: the successor (+1) of the highest `altAt` position, or 0 when
there is none (no device after `a`). -/
def discSpec (D : List Nat) (a ld : Nat) : Prop :=
  (ld = 0 ∧ ∀ k < 64, ¬altAt D a k) ∨
  (0 < ld ∧ ld ≤ 64 ∧ altAt D a (ld - 1) ∧ ∀ k, ld ≤ k → k < 64 → ¬altAt D a k)

/-- Overwrite bit `j` of `g` with `d` (the abstract counterpart of the
`rom_no` byte updates; meaningful for `g < 2^64`, `j < 64`). -/
def setB (g j : Nat) (d : Bool) : Nat :=
  if d then g ||| 2 ^ j else g &&& (2 ^ j ^^^ (2 ^ 64 - 1))

/-- The direction the walk takes at position `j` when the working value is `g`
(bits below `j` already chosen, bits at/above `j` still those of the previous
address): the agreed bit if the participants agree, otherwise replay below
`last_discrepancy`, 1 at it, 0 above it. -/
def sdir (D : List Nat) (ld : Nat) (g j : Nat) : Bool :=
  let P := D.filter fun b => decide (agreeBelow b g j)
  if P.all fun b => b.testBit j then true
  else if P.all fun b => !b.testBit j then false
  else if j + 1 < ld then g.testBit j
  else j + 1 == ld

/-- Is position `j` a discrepancy (participating devices disagree there)? -/
def sdisc (D : List Nat) (g j : Nat) : Bool :=
  let P := D.filter fun b => decide (agreeBelow b g j)
  !(P.all fun b => b.testBit j) && !(P.all fun b => !b.testBit j)

/-- The abstract bit walk over `n` positions starting at `j`: thread the
working value `g` and the `last_zero` accumulator `lz` through `sdir`. -/
def swalk (D : List Nat) (ld : Nat) : Nat → Nat → Nat → Nat → Nat × Nat
  | 0, _, g, lz => (g, lz)
  | n + 1, j, g, lz =>
      let d := sdir D ld g j
      let lz := if sdisc D g j && !d then j + 1 else lz
      swalk D ld n (j + 1) (setB g j d) lz

/-- Scalar view of the loop body's direction choice (proved equal to the
tuple computed inside `searchLoop`; used to state step lemmas). -/
def stepDir (ld idb romByte mask : Nat) (ib cb : Bool) : Bool :=
  if ib != cb then ib
  else if idb < ld then (romByte &&& mask) != 0
  else idb == ld

/-- Scalar view of the loop body's `last_zero` update (proved equal to the
tuple computed inside `searchLoop`). -/
def stepLz (ld idb lz romByte mask : Nat) (ib cb : Bool) : Nat :=
  if ib != cb then lz
  else if !(if idb < ld then (romByte &&& mask) != 0 else idb == ld) then idb
  else lz

/-- The 64-bit value held by the ROM byte buffer, least significant byte first. -/
def asmRom : List Nat → Nat
  | [] => 0
  | b :: rest => b + 256 * asmRom rest

/-- Well-formed ROM buffer: 8 bytes. -/
def romWF (rom : List Nat) : Prop := rom.length = 8 ∧ ∀ x ∈ rom, x < 256

/-- The state invariant tying a search state to the last returned address `a`:
the buffer holds `a` and `last_discrepancy`/`last_device_found` record the
highest unexplored 1 branch along `a`, per `discSpec`. -/
def Good (D : List Nat) (st : onewire_search_t) (a : Nat) : Prop :=
  romWF st.rom_no ∧ asmRom st.rom_no = a ∧
  discSpec D a st.last_discrepancy ∧
  st.last_device_found = (st.last_discrepancy == 0)

/-! ## Trace lemmas for the bit-level functions -/

theorem reset_wait_mem (reads : Nat → Bool) :
    ∀ (retries k : Nat) (e : Ev), e ∈ (onewire_reset_wait reads retries k).1 →
      e = Ev.delayUs 2 ∨ e = Ev.gpioRead := by
  intro retries
  induction retries with
  | zero => intro k e h; simp [onewire_reset_wait] at h
  | succ r ih =>
      intro k e h
      by_cases h0 : r = 0
      · simp [onewire_reset_wait, h0] at h
      · by_cases hr : reads k
        · simp [onewire_reset_wait, h0, hr] at h
          rcases h with h | h
          · exact Or.inl h
          · exact Or.inr h
        · simp only [onewire_reset_wait, if_neg h0, if_neg hr, List.cons_append,
            List.nil_append, List.mem_cons] at h
          rcases h with h | h | h
          · exact Or.inl h
          · exact Or.inr h
          · exact ih (k + 1) e h

theorem reset_wait_none_iff (reads : Nat → Bool) :
    ∀ (retries k : Nat), 1 ≤ retries →
      ((onewire_reset_wait reads retries k).2 = none ↔
        ∀ i, k ≤ i → i < k + (retries - 1) → reads i = false) := by
  intro retries
  induction retries with
  | zero => intro k h; omega
  | succ r ih =>
      intro k _
      by_cases h0 : r = 0
      · subst h0
        simp [onewire_reset_wait]
        omega
      · by_cases hr : reads k
        · simp only [onewire_reset_wait, if_neg h0, if_pos hr]
          constructor
          · intro h; exact absurd h (by simp)
          · intro h
            have := h k (Nat.le_refl k) (by omega)
            rw [hr] at this; exact absurd this (by simp)
        · simp only [onewire_reset_wait, if_neg h0, if_neg hr]
          rw [ih (k + 1) (by omega)]
          constructor
          · intro h i hk hi
            by_cases hik : i = k
            · subst hik; exact Bool.eq_false_iff.mpr hr
            · exact h i (by omega) (by omega)
          · intro h i hk hi
            exact h i (by omega) (by omega)

/-- C3 (counterexample): the delay totals of the two branches of
`onewire_write_bit` differ: 10+55 = 65 for value 1 versus 65+5 = 70 for
value 0, so the total slot duration is not the same constant. -/
theorem write_bit_slot_not_constant :
    delaySum (onewire_write_bit_events 1) ≠ delaySum (onewire_write_bit_events 0) := by
  decide

/-- C3 (amended): the microsecond delay constants of `onewire_write_bit` sum
to 65 in the value=1 branch and to 70 in the value=0 branch; the two totals
differ by 5µs. -/
theorem write_bit_slot_totals :
    delaySum (onewire_write_bit_events 1) = 65 ∧ delaySum (onewire_write_bit_events 0) = 70 := by
  decide

/-- C5: `onewire_reset` executes the 410µs recovery delay before returning,
both on the presence and on the no-presence outcome; the only path without it
is the early return taken when none of the (at most 124) idle-wait polls sees
the line high, and that path reports no presence. -/
theorem reset_always_recovers (reads : Nat → Bool) :
    ((∃ i, i < 124 ∧ reads i = true) → Ev.delayUs 410 ∈ (onewire_reset reads).2) ∧
    ((∀ i, i < 124 → reads i = false) →
      (onewire_reset reads).1 = false ∧ Ev.delayUs 410 ∉ (onewire_reset reads).2) := by
  rcases hw : onewire_reset_wait reads 125 0 with ⟨evs, o⟩
  have hiff := reset_wait_none_iff reads 125 0 (by omega)
  cases o with
  | none =>
      have hall' : ∀ i, i < 124 → reads i = false := by
        intro i hi
        exact (hiff.mp (by rw [hw])) i (Nat.zero_le i) (by omega)
      constructor
      · rintro ⟨i, hi, hread⟩
        rw [hall' i hi] at hread; exact absurd hread (by simp)
      · intro _
        refine ⟨by simp [onewire_reset, hw], ?_⟩
        intro hmem
        simp only [onewire_reset, hw, List.mem_append, List.mem_cons,
          List.not_mem_nil] at hmem
        rcases hmem with (h | h) | h
        · exact absurd h (by simp)
        · simp at h
        · rcases reset_wait_mem reads 125 0 _ (by rw [hw]; exact h) with h' | h' <;> simp at h'
  | some k =>
      constructor
      · intro _
        simp [onewire_reset, hw, List.mem_append]
      · intro hall
        exfalso
        have h2 : (onewire_reset_wait reads 125 0).2 = none :=
          hiff.mpr (fun i _ hi => hall i (by omega))
        rw [hw] at h2
        simp at h2

/-- C5 witness: a bus whose line is high at the first poll reaches the
recovery delay. -/
theorem reset_always_recovers_witness :
    Ev.delayUs 410 ∈ (onewire_reset (fun _ => true)).2 :=
  (reset_always_recovers (fun _ => true)).1 ⟨0, by omega, rfl⟩

/-- C10: in `onewire_write_bit`, `onewire_read_bit` and `onewire_reset`, every
`taskENTER_CRITICAL` is followed by exactly one matching `taskEXIT_CRITICAL`
before the function returns: the critical-section events of each trace are
exactly one enter/exit pair, or none at all on `onewire_reset`'s early-return
path (which suspends nothing). -/
theorem critical_sections_paired (v : Nat) (reads : Nat → Bool) :
    (onewire_write_bit_events v).filter isCritEv = [Ev.enterCritical, Ev.exitCritical] ∧
    onewire_read_bit_events.filter isCritEv = [Ev.enterCritical, Ev.exitCritical] ∧
    ((onewire_reset reads).2.filter isCritEv = [Ev.enterCritical, Ev.exitCritical] ∨
      (onewire_reset reads).2.filter isCritEv = []) := by
  refine ⟨?_, by decide, ?_⟩
  · unfold onewire_write_bit_events
    by_cases h : (v &&& 1 != 0) = true
    · rw [if_pos h]; decide
    · rw [if_neg h]; decide
  · rcases hw : onewire_reset_wait reads 125 0 with ⟨evs, o⟩
    have hevs : evs.filter isCritEv = [] := by
      rw [List.filter_eq_nil_iff]
      intro e he
      have := reset_wait_mem reads 125 0 e (by rw [hw]; exact he)
      rcases this with h' | h' <;> subst h' <;> decide
    cases o with
    | none =>
        right
        simp only [onewire_reset, hw]
        simp [List.filter_cons, List.filter_append, hevs, isCritEv]
    | some k =>
        left
        simp only [onewire_reset, hw]
        simp [List.filter_cons, List.filter_append, hevs, isCritEv]

/-- C10 witness: the claim instantiated on the value=1 write slot. -/
theorem critical_sections_paired_witness :
    (onewire_write_bit_events 1).filter isCritEv = [Ev.enterCritical, Ev.exitCritical] :=
  (critical_sections_paired 1 (fun _ => true)).1

/-! ## Search-state lemmas: exhaustion, abort, bounds, family byte -/

/-- C2 (amended): a call on an exhausted state (`last_device_found` true)
returns no device without performing any bus operation (the bus state is
returned unchanged, for every bus model), but it also resets the state
(`last_discrepancy := 0`, `last_device_found := false`), so the state does
not remain exhausted: the following call starts a fresh enumeration. -/
theorem exhausted_call_resets (σ : Type) (B : BusModel σ) (s : σ)
    (search : onewire_search_t) (h : search.last_device_found = true) :
    onewire_search_next B s search =
      (s, { search with last_discrepancy := 0, last_device_found := false }, none) := by
  simp [onewire_search_next, h]

/-- C2 witness: the amended claim at a concrete exhausted state. -/
theorem exhausted_call_resets_witness :
    onewire_search_next unitBus () ⟨List.replicate 8 0, 3, true⟩ =
      ((), ⟨List.replicate 8 0, 0, false⟩, none) :=
  exhausted_call_resets Unit unitBus () ⟨List.replicate 8 0, 3, true⟩ rfl

/-- C2 (counterexample): after a call on an exhausted state the state does
not read as exhausted any more: `last_device_found` has been reset. -/
theorem exhausted_state_not_sticky :
    ¬((onewire_search_next unitBus ()
        ⟨List.replicate 8 0, 0, true⟩).2.1.last_device_found = true) := by
  decide

/-- C4 (amended): when the bit walk aborts because a read bit and its
complement are both 1 (the loop breaks with `id_bit_number < 65`),
`onewire_search_next` returns no device and resets the search state:
`last_discrepancy` is set to 0 (not left unchanged) and `last_device_found`
to false. -/
theorem search_abort_resets_state (σ : Type) (B : BusModel σ) (s : σ)
    (search : onewire_search_t) (h : search.last_device_found = false)
    (hpres : (B.reset s).2 = true)
    (hbrk : (searchLoop B search.last_discrepancy 64 (B.write (B.reset s).1 0xF0)
        1 0 0 1 search.rom_no).2.1 < 65) :
    onewire_search_next B s search =
      ((searchLoop B search.last_discrepancy 64 (B.write (B.reset s).1 0xF0)
          1 0 0 1 search.rom_no).1,
       { rom_no := (searchLoop B search.last_discrepancy 64 (B.write (B.reset s).1 0xF0)
            1 0 0 1 search.rom_no).2.2.2,
         last_discrepancy := 0, last_device_found := false },
       none) := by
  simp [onewire_search_next, h, hpres, hbrk]

/-- C4 witness: on a bus whose reads are stuck high the walk aborts at once;
the state (here with `last_discrepancy = 5`) is reset. -/
theorem search_abort_resets_state_witness :
    onewire_search_next unitBus () ⟨List.replicate 8 0, 5, false⟩ =
      ((), ⟨List.replicate 8 0, 0, false⟩, none) :=
  search_abort_resets_state Unit unitBus () ⟨List.replicate 8 0, 5, false⟩ rfl rfl (by decide)

/-- C4 (counterexample): aborting the walk with `last_discrepancy = 5` does
return no device, but `last_discrepancy` is not left unchanged: it is 0
afterwards. -/
theorem search_abort_changes_discrepancy :
    (onewire_search_next unitBus () ⟨List.replicate 8 0, 5, false⟩).2.2 = none ∧
    (onewire_search_next unitBus ()
      ⟨List.replicate 8 0, 5, false⟩).2.1.last_discrepancy ≠ 5 := by
  decide

theorem searchLoop_break {σ : Type} {B : BusModel σ} {ld f : Nat} {s s1 s2 : σ}
    {idb lz rbn mask : Nat} {rom : List Nat}
    (h1 : B.read_bit s = (s1, true)) (h2 : B.read_bit s1 = (s2, true)) :
    searchLoop B ld (f + 1) s idb lz rbn mask rom = (s2, idb, lz, rom) := by
  simp [searchLoop, h1, h2]

theorem searchLoop_cont {σ : Type} {B : BusModel σ} {ld f : Nat} {s s1 s2 : σ}
    {ib cb : Bool} {idb lz rbn mask : Nat} {rom : List Nat}
    (h1 : B.read_bit s = (s1, ib)) (h2 : B.read_bit s1 = (s2, cb))
    (hnb : (ib && cb) = false) :
    searchLoop B ld (f + 1) s idb lz rbn mask rom =
      (let dir := stepDir ld idb (rom.getD rbn 0) mask ib cb
       let lz' := stepLz ld idb lz (rom.getD rbn 0) mask ib cb
       let rom' :=
         if dir then rom.set rbn ((rom.getD rbn 0) ||| mask)
         else rom.set rbn ((rom.getD rbn 0) &&& (mask ^^^ 255))
       let s3 := B.write_bit s2 dir
       let bn : Nat × Nat :=
         if ((mask <<< 1) % 256) == 0 then (rbn + 1, 1) else (rbn, (mask <<< 1) % 256)
       if bn.1 < 8 then searchLoop B ld f s3 (idb + 1) lz' bn.1 bn.2 rom'
       else (s3, idb + 1, lz', rom')) := by
  cases ib <;> cases cb <;>
    simp_all [searchLoop, h1, h2, stepDir, stepLz]

theorem stepLz_le {ld idb lz romByte mask : Nat} {ib cb : Bool} :
    stepLz ld idb lz romByte mask ib cb ≤ max lz idb := by
  unfold stepLz
  repeat' split
  all_goals omega

theorem searchLoop_lz_le {σ : Type} (B : BusModel σ) (ld : Nat) :
    ∀ (fuel : Nat) (s : σ) (idb lz rbn mask : Nat) (rom : List Nat),
      (searchLoop B ld fuel s idb lz rbn mask rom).2.2.1 ≤ max lz (idb + fuel - 1) := by
  intro fuel
  induction fuel with
  | zero =>
      intro s idb lz rbn mask rom
      simp only [searchLoop]
      omega
  | succ f ih =>
      intro s idb lz rbn mask rom
      rcases h1 : B.read_bit s with ⟨s1, ib⟩
      rcases h2 : B.read_bit s1 with ⟨s2, cb⟩
      by_cases hb : (ib && cb) = true
      · obtain ⟨hib, hcb⟩ := Bool.and_eq_true ib cb |>.mp hb
        subst hib; subst hcb
        rw [searchLoop_break h1 h2]
        dsimp only
        omega
      · have hb' : (ib && cb) = false := by simpa using hb
        rw [searchLoop_cont h1 h2 hb']
        have hlz : stepLz ld idb lz (rom.getD rbn 0) mask ib cb ≤ max lz idb := stepLz_le
        dsimp only
        split <;> split
        · exact le_trans (ih _ _ _ _ _ _) (by omega)
        · dsimp only; omega
        · exact le_trans (ih _ _ _ _ _ _) (by omega)
        · dsimp only; omega

theorem getD_lt {rom : List Nat} (h : ∀ x ∈ rom, x < 256) (i : Nat) : rom.getD i 0 < 256 := by
  rw [List.getD_eq_getElem?_getD]
  cases hx : rom[i]? with
  | none => simp
  | some x => simpa using h x (List.getElem?_mem hx)

theorem or_byte_lt {a m : Nat} (ha : a < 256) (hm : m < 256) : a ||| m < 256 := by
  have ha' : a < 2 ^ 8 := ha
  have hm' : m < 2 ^ 8 := hm
  exact Nat.or_lt_two_pow ha' hm'

theorem and_byte_lt {a m : Nat} (ha : a < 256) : a &&& m < 256 :=
  Nat.lt_of_le_of_lt Nat.and_le_left ha

theorem set_byte_wf {rom : List Nat} {rbn v : Nat} (hwf : romWF rom) (hv : v < 256) :
    romWF (rom.set rbn v) := by
  refine ⟨by simp [hwf.1], ?_⟩
  intro x hx
  rcases List.mem_or_eq_of_mem_set hx with h | h
  · exact hwf.2 x h
  · subst h; exact hv

theorem searchLoop_romWF {σ : Type} (B : BusModel σ) (ld : Nat) :
    ∀ (fuel : Nat) (s : σ) (idb lz rbn mask : Nat) (rom : List Nat),
      romWF rom → mask < 256 →
      romWF (searchLoop B ld fuel s idb lz rbn mask rom).2.2.2 := by
  intro fuel
  induction fuel with
  | zero =>
      intro s idb lz rbn mask rom hwf _
      simpa [searchLoop] using hwf
  | succ f ih =>
      intro s idb lz rbn mask rom hwf hm
      rcases h1 : B.read_bit s with ⟨s1, ib⟩
      rcases h2 : B.read_bit s1 with ⟨s2, cb⟩
      by_cases hb : (ib && cb) = true
      · obtain ⟨hib, hcb⟩ := Bool.and_eq_true ib cb |>.mp hb
        subst hib; subst hcb
        rw [searchLoop_break h1 h2]
        exact hwf
      · have hb' : (ib && cb) = false := by simpa using hb
        rw [searchLoop_cont h1 h2 hb']
        have hrom' : romWF (if stepDir ld idb (rom.getD rbn 0) mask ib cb then
            rom.set rbn ((rom.getD rbn 0) ||| mask)
          else rom.set rbn ((rom.getD rbn 0) &&& (mask ^^^ 255))) := by
          split
          · exact set_byte_wf hwf (or_byte_lt (getD_lt hwf.2 rbn) hm)
          · exact set_byte_wf hwf (and_byte_lt (getD_lt hwf.2 rbn))
        have hmask' : (mask <<< 1) % 256 < 256 := Nat.mod_lt _ (by omega)
        dsimp only
        split <;> split
        · exact ih _ _ _ _ _ _ hrom' (by omega)
        · exact hrom'
        · exact ih _ _ _ _ _ _ hrom' hmask'
        · exact hrom'

theorem search_next_ld_le {σ : Type} (B : BusModel σ) (s : σ) (search : onewire_search_t) :
    (onewire_search_next B s search).2.1.last_discrepancy ≤ 64 := by
  cases hldf : search.last_device_found with
  | true => simp [onewire_search_next, hldf]
  | false =>
      cases hpres : (B.reset s).2 with
      | false => simp [onewire_search_next, hldf, hpres]
      | true =>
          by_cases hidb : (searchLoop B search.last_discrepancy 64 (B.write (B.reset s).1 0xF0)
              1 0 0 1 search.rom_no).2.1 < 65
          · simp [onewire_search_next, hldf, hpres, hidb]
          · by_cases hz : (searchLoop B search.last_discrepancy 64 (B.write (B.reset s).1 0xF0)
                1 0 0 1 search.rom_no).2.2.2.getD 0 0 = 0
            all_goals rw [List.getD_eq_getElem?_getD] at hz
            · simp [onewire_search_next, hldf, hpres, hidb, hz]
            · simp [onewire_search_next, hldf, hpres, hidb, hz]
              have := searchLoop_lz_le B search.last_discrepancy 64
                (B.write (B.reset s).1 0xF0) 1 0 0 1 search.rom_no
              omega

theorem applyOp_ld_le (st : onewire_search_t) (op : SearchOp) :
    (applyOp st op).last_discrepancy ≤ 64 := by
  cases op with
  | start => simp [applyOp, onewire_search_start]
  | seedFamily fc => simp [applyOp, onewire_search_prefix]
  | next devices => exact search_next_ld_le simBusModel ⟨devices, [], 0, false⟩ st

/-- C9: over every sequence of `onewire_search_start`, `onewire_search_prefix`
and `onewire_search_next` calls, the state's `last_discrepancy` is in [0, 64]
after every operation (stated for the final state of an arbitrary nonempty
sequence, from an arbitrary starting state; `last_discrepancy` is a `Nat`, so
only the upper bound is substantive). -/
theorem search_ld_bounded :
    ∀ (ops : List SearchOp) (st : onewire_search_t), ops ≠ [] →
      (applyOps st ops).last_discrepancy ≤ 64 := by
  intro ops
  induction ops with
  | nil => intro st h; exact absurd rfl h
  | cons op rest ih =>
      intro st _
      cases hrest : rest with
      | nil => subst hrest; simpa [applyOps] using applyOp_ld_le st op
      | cons op2 rest2 =>
          subst hrest
          simpa [applyOps] using ih (applyOp st op) (by simp)

/-- C9 witness: the bound after a single `onewire_search_start`. -/
theorem search_ld_bounded_witness :
    (applyOps onewire_search_start [SearchOp.start]).last_discrepancy ≤ 64 :=
  search_ld_bounded [SearchOp.start] onewire_search_start (by simp)

theorem or_shift (x b : Nat) (h : b < 256) : (x <<< 8) ||| b = 256 * x + b := by
  have hb : b < 2 ^ 8 := h
  calc (x <<< 8) ||| b = (2 ^ 8 * x) ||| b := by rw [Nat.shiftLeft_eq, Nat.mul_comm]
    _ = 2 ^ 8 * x + b := (Nat.mul_add_lt_is_or hb x).symm
    _ = 256 * x + b := by norm_num

theorem assembleAddr_eq_asmRom {rom : List Nat} (hwf : romWF rom) :
    assembleAddr rom = asmRom rom := by
  obtain ⟨hlen, hmem⟩ := hwf
  rcases rom with _ | ⟨b0, _ | ⟨b1, _ | ⟨b2, _ | ⟨b3, _ | ⟨b4, _ | ⟨b5, _ | ⟨b6, _ | ⟨b7, rest⟩⟩⟩⟩⟩⟩⟩⟩ <;>
    simp only [List.length_cons, List.length_nil] at hlen
  all_goals try omega
  have hrest : rest = [] := by
    cases rest with
    | nil => rfl
    | cons x xs => simp at hlen
  subst hrest
  have h8 : List.range 8 = [0, 1, 2, 3, 4, 5, 6, 7] := rfl
  simp only [assembleAddr, asmRom, h8, List.foldl_cons, List.foldl_nil]
  norm_num [List.getD_cons_zero, List.getD_cons_succ]
  rw [or_shift _ b6 (hmem b6 (by simp)),
    or_shift _ b5 (hmem b5 (by simp)), or_shift _ b4 (hmem b4 (by simp)),
    or_shift _ b3 (hmem b3 (by simp)), or_shift _ b2 (hmem b2 (by simp)),
    or_shift _ b1 (hmem b1 (by simp)), or_shift _ b0 (hmem b0 (by simp))]
  ring

theorem asmRom_lt : ∀ (rom : List Nat), (∀ x ∈ rom, x < 256) →
    asmRom rom < 256 ^ rom.length := by
  intro rom
  induction rom with
  | nil => intro _; simp [asmRom]
  | cons b rest ih =>
      intro h
      have hb : b < 256 := h b (by simp)
      have hr := ih (fun x hx => h x (by simp [hx]))
      have : (256 : Nat) ^ (b :: rest).length = 256 * 256 ^ rest.length := by
        simp [List.length_cons, Nat.pow_succ, Nat.mul_comm]
      rw [this, asmRom]
      omega

theorem asmRom_mod_256 {rom : List Nat} (hwf : romWF rom) :
    asmRom rom % 256 = rom.getD 0 0 := by
  obtain ⟨hlen, hmem⟩ := hwf
  cases rom with
  | nil => simp at hlen
  | cons b rest =>
      have hb : b < 256 := hmem b (by simp)
      simp [asmRom, List.getD_cons_zero, Nat.add_mul_mod_self_left, Nat.mod_eq_of_lt hb]

/-- C8: whenever `onewire_search_next` returns a discovered address, its
family-code byte (`addr % 256`) is nonzero; and when the walk completes but
`rom_no[0]` is zero, the call resets the state (`last_discrepancy := 0`,
`last_device_found := false`) and returns no device. -/
theorem search_family_code_nonzero (σ : Type) (B : BusModel σ) (s : σ)
    (search : onewire_search_t) (hwf : romWF search.rom_no) :
    (∀ addr, (onewire_search_next B s search).2.2 = some addr → addr % 256 ≠ 0) ∧
    (search.last_device_found = false → (B.reset s).2 = true →
      ¬((searchLoop B search.last_discrepancy 64 (B.write (B.reset s).1 0xF0)
          1 0 0 1 search.rom_no).2.1 < 65) →
      (searchLoop B search.last_discrepancy 64 (B.write (B.reset s).1 0xF0)
          1 0 0 1 search.rom_no).2.2.2.getD 0 0 = 0 →
      onewire_search_next B s search =
        ((searchLoop B search.last_discrepancy 64 (B.write (B.reset s).1 0xF0)
            1 0 0 1 search.rom_no).1,
         { rom_no := (searchLoop B search.last_discrepancy 64 (B.write (B.reset s).1 0xF0)
              1 0 0 1 search.rom_no).2.2.2,
           last_discrepancy := 0, last_device_found := false },
         none)) := by
  constructor
  · intro addr haddr
    cases hldf : search.last_device_found with
    | true => simp [onewire_search_next, hldf] at haddr
    | false =>
        cases hpres : (B.reset s).2 with
        | false => simp [onewire_search_next, hldf, hpres] at haddr
        | true =>
            by_cases hidb : (searchLoop B search.last_discrepancy 64 (B.write (B.reset s).1 0xF0)
                1 0 0 1 search.rom_no).2.1 < 65
            · simp [onewire_search_next, hldf, hpres, hidb] at haddr
            · by_cases hz : (searchLoop B search.last_discrepancy 64 (B.write (B.reset s).1 0xF0)
                  1 0 0 1 search.rom_no).2.2.2.getD 0 0 = 0
              all_goals
                have hz' := hz
                rw [List.getD_eq_getElem?_getD] at hz'
              · simp [onewire_search_next, hldf, hpres, hidb, hz'] at haddr
              · simp [onewire_search_next, hldf, hpres, hidb, hz'] at haddr
                have hwf' : romWF (searchLoop B search.last_discrepancy 64
                    (B.write (B.reset s).1 0xF0) 1 0 0 1 search.rom_no).2.2.2 :=
                  searchLoop_romWF B search.last_discrepancy 64 _ 1 0 0 1 _ hwf (by omega)
                rw [← haddr, assembleAddr_eq_asmRom hwf', asmRom_mod_256 hwf']
                exact hz
  · intro hldf hpres hidb hz
    rw [List.getD_eq_getElem?_getD] at hz
    simp [onewire_search_next, hldf, hpres, hidb, hz]

/-- C8 witness: on a one-device bus holding address 1, the call returns
address 1, whose family byte is nonzero. -/
theorem search_family_code_nonzero_witness :
    (onewire_search_next simBusModel ⟨[1], [], 0, false⟩
        onewire_search_start).2.2 = some 1 ∧ (1 : Nat) % 256 ≠ 0 :=
  ⟨by decide,
   (search_family_code_nonzero SimBus simBusModel ⟨[1], [], 0, false⟩
     onewire_search_start (by constructor <;> simp [onewire_search_start])).1 1 (by decide)⟩

/-! ## CRC-16 lemmas (claim C6) -/

theorem crc16_step_lt (c cd : Nat) (p : Prop) [Decidable p] (hc : c < 65536) (hcd : cd < 256) :
    ((if p then (c >>> 8) ^^^ 0xC001 else c >>> 8) ^^^ (cd <<< 6)) ^^^ ((cd <<< 6) <<< 1)
      < 65536 := by
  have h1 : c >>> 8 < 65536 := by
    rw [Nat.shiftRight_eq_div_pow]
    exact Nat.lt_of_le_of_lt (Nat.div_le_self c (2 ^ 8)) hc
  have h2 : (if p then (c >>> 8) ^^^ 0xC001 else c >>> 8) < 65536 := by
    split
    · have hk : (0xC001 : Nat) < 2 ^ 16 := by norm_num
      have h1' : c >>> 8 < 2 ^ 16 := h1
      exact Nat.xor_lt_two_pow h1' hk
    · exact h1
  have h3 : cd <<< 6 < 2 ^ 16 := by
    rw [Nat.shiftLeft_eq]
    calc cd * 2 ^ 6 ≤ 255 * 2 ^ 6 := Nat.mul_le_mul_right _ (by omega)
      _ < 2 ^ 16 := by norm_num
  have h4 : (cd <<< 6) <<< 1 < 2 ^ 16 := by
    rw [Nat.shiftLeft_eq, Nat.shiftLeft_eq]
    calc cd * 2 ^ 6 * 2 ^ 1 ≤ 255 * 2 ^ 6 * 2 ^ 1 :=
          Nat.mul_le_mul_right _ (Nat.mul_le_mul_right _ (by omega))
      _ < 2 ^ 16 := by norm_num
  have h2' : (if p then (c >>> 8) ^^^ 0xC001 else c >>> 8) < 2 ^ 16 := h2
  exact Nat.xor_lt_two_pow (Nat.xor_lt_two_pow h2' h3) h4

theorem crc16_lt : ∀ (input : List Nat) (crc : Nat), crc < 65536 →
    onewire_crc16 input crc < 65536 := by
  intro input
  induction input with
  | nil => intro crc h; simpa [onewire_crc16] using h
  | cons b l ih =>
      intro crc h
      have heq : onewire_crc16 (b :: l) crc = onewire_crc16 l
          (((if (oddparity.getD (((b ^^^ crc) &&& 0xff) &&& 0x0F) 0) ^^^
                (oddparity.getD (((b ^^^ crc) &&& 0xff) >>> 4) 0) != 0 then
              (crc >>> 8) ^^^ 0xC001 else crc >>> 8) ^^^ (((b ^^^ crc) &&& 0xff) <<< 6)) ^^^
            ((((b ^^^ crc) &&& 0xff) <<< 6) <<< 1)) := rfl
      rw [heq]
      exact ih _ (crc16_step_lt crc ((b ^^^ crc) &&& 0xff) _ h
        (Nat.lt_of_le_of_lt Nat.and_le_right (by norm_num)))

/-- C6: `onewire_check_crc16` applied to the two bytes of the bitwise-inverted
`onewire_crc16` of the same data and seed (low byte first, then high byte)
returns true, and it returns true only when the received bytes equal exactly
those two bytes.  (The first conjunct confirms that the compared high part is
indeed a byte.) -/
theorem check_crc16_correct (input : List Nat) (seed : Nat) (hseed : seed < 65536) :
    ((onewire_crc16 input seed ^^^ 0xFFFF) >>> 8) < 256 ∧
    onewire_check_crc16 input
      [(onewire_crc16 input seed ^^^ 0xFFFF) &&& 0xFF,
       (onewire_crc16 input seed ^^^ 0xFFFF) >>> 8] seed = true ∧
    (∀ lo hi, onewire_check_crc16 input [lo, hi] seed = true ↔
      lo = (onewire_crc16 input seed ^^^ 0xFFFF) &&& 0xFF ∧
      hi = (onewire_crc16 input seed ^^^ 0xFFFF) >>> 8) := by
  have hlt : onewire_crc16 input seed < 2 ^ 16 := crc16_lt input seed hseed
  have hc : onewire_crc16 input seed ^^^ 0xFFFF < 65536 :=
    Nat.xor_lt_two_pow hlt (by norm_num)
  refine ⟨?_, ?_, ?_⟩
  · rw [Nat.shiftRight_eq_div_pow]
    have h8 : (2 : Nat) ^ 8 = 256 := by norm_num
    rw [h8]
    omega
  · simp [onewire_check_crc16]
  · intro lo hi
    simp only [onewire_check_crc16, List.getD_cons_zero, List.getD_cons_succ,
      Bool.and_eq_true, beq_iff_eq]
    constructor
    · rintro ⟨hl, hh⟩; exact ⟨hl.symm, hh.symm⟩
    · rintro ⟨hl, hh⟩; exact ⟨hl.symm, hh.symm⟩

/-- C6 witness: the round trip at a concrete input and seed. -/
theorem check_crc16_correct_witness :
    onewire_check_crc16 [1, 2, 3]
      [(onewire_crc16 [1, 2, 3] 0 ^^^ 0xFFFF) &&& 0xFF,
       (onewire_crc16 [1, 2, 3] 0 ^^^ 0xFFFF) >>> 8] 0 = true :=
  (check_crc16_correct [1, 2, 3] 0 (by norm_num)).2.1

/-! ## CRC-8 lemmas (claim C7) -/

theorem xor_left_comm (a b c : Nat) : a ^^^ (b ^^^ c) = b ^^^ (a ^^^ c) := by
  rw [← Nat.xor_assoc, Nat.xor_comm a b, Nat.xor_assoc]

theorem shiftRight_one_xor (x y : Nat) : (x ^^^ y) >>> 1 = x >>> 1 ^^^ y >>> 1 := by
  apply Nat.eq_of_testBit_eq
  intro i
  simp

theorem crc8_rounds_xor : ∀ (n c b : Nat),
    crc8_rounds n (c ^^^ b) 0 = crc8_rounds n c b ^^^ (b >>> n) := by
  intro n
  induction n with
  | zero => intro c b; simp [crc8_rounds]
  | succ n ih =>
      intro c b
      simp only [crc8_rounds, Nat.xor_zero, Nat.zero_shiftRight]
      by_cases hm : (((c ^^^ b) &&& 1) != 0) = true
      · rw [if_pos hm, if_pos hm]
        have harg : ((c ^^^ b) >>> 1) ^^^ 0x8C = ((c >>> 1 ^^^ 0x8C) ^^^ (b >>> 1)) := by
          rw [shiftRight_one_xor]
          rw [Nat.xor_assoc, Nat.xor_comm (b >>> 1) 0x8C, ← Nat.xor_assoc]
        rw [harg, ih, ← Nat.shiftRight_add b 1 n, Nat.add_comm 1 n]
      · rw [if_neg hm, if_neg hm]
        rw [shiftRight_one_xor, ih, ← Nat.shiftRight_add b 1 n, Nat.add_comm 1 n]

set_option maxRecDepth 4000 in
theorem crc8_table_entry : ∀ i : Fin 256, dscrc_table.getD i.val 0 = crc8_rounds 8 0 i.val := by
  decide

set_option maxRecDepth 4000 in
theorem dscrc_table_lt : ∀ x ∈ dscrc_table, x < 256 := by decide

theorem crc8_step_eq (c b : Nat) (hc : c < 256) (hb : b < 256) :
    dscrc_table.getD (c ^^^ b) 0 = crc8_rounds 8 c b := by
  have hc' : c < 2 ^ 8 := hc
  have hb' : b < 2 ^ 8 := hb
  have hxor : c ^^^ b < 256 := Nat.xor_lt_two_pow hc' hb'
  have hshift : (c ^^^ b) >>> 8 = 0 := by
    rw [Nat.shiftRight_eq_div_pow]
    exact Nat.div_eq_of_lt hxor
  have hshiftb : b >>> 8 = 0 := by
    rw [Nat.shiftRight_eq_div_pow]
    exact Nat.div_eq_of_lt hb
  have h1 := crc8_rounds_xor 8 0 (c ^^^ b)
  rw [Nat.zero_xor, hshift, Nat.xor_zero] at h1
  have h2 := crc8_rounds_xor 8 c b
  rw [hshiftb, Nat.xor_zero] at h2
  rw [crc8_table_entry ⟨c ^^^ b, hxor⟩, ← h1, h2]

theorem crc8_fold_eq : ∀ (l : List Nat) (c : Nat), c < 256 → (∀ x ∈ l, x < 256) →
    l.foldl (fun crc b => dscrc_table.getD (crc ^^^ b) 0) c =
    l.foldl (fun crc inbyte => crc8_rounds 8 crc inbyte) c := by
  intro l
  induction l with
  | nil => intro c _ _; rfl
  | cons b rest ih =>
      intro c hc hl
      have hb : b < 256 := hl b (by simp)
      simp only [List.foldl_cons]
      rw [crc8_step_eq c b hc hb]
      exact ih _ (crc8_step_eq c b hc hb ▸ getD_lt dscrc_table_lt (c ^^^ b))
        (fun x hx => hl x (by simp [hx]))

/-- C7: on byte inputs, the table-driven `onewire_crc8` and the bitwise
(polynomial 0x8C, LSB-first, 8 shift rounds per byte) `onewire_crc8` return
the same result. -/
theorem crc8_implementations_agree (addr : List Nat) (h : ∀ x ∈ addr, x < 256) :
    onewire_crc8_table addr = onewire_crc8 addr :=
  crc8_fold_eq addr 0 (by norm_num) h

/-- C7 witness: agreement at a concrete byte string. -/
theorem crc8_implementations_agree_witness :
    onewire_crc8_table [40, 255, 0] = onewire_crc8 [40, 255, 0] :=
  crc8_implementations_agree [40, 255, 0] (by decide)

/-! ## Bit-level view of the ROM buffer (towards claim C1) -/

theorem asmRom_lt_64 {rom : List Nat} (hwf : romWF rom) : asmRom rom < 2 ^ 64 := by
  have := asmRom_lt rom hwf.2
  rw [hwf.1] at this
  calc asmRom rom < 256 ^ 8 := this
    _ = 2 ^ 64 := by norm_num

theorem testBit_ge_64 {g : Nat} (hg : g < 2 ^ 64) {i : Nat} (hi : 64 ≤ i) :
    g.testBit i = false := by
  apply Nat.testBit_lt_two_pow
  calc g < 2 ^ 64 := hg
    _ ≤ 2 ^ i := Nat.pow_le_pow_right (by omega) hi

theorem setB_testBit {g : Nat} (hg : g < 2 ^ 64) {j : Nat} (hj : j < 64) (d : Bool) (i : Nat) :
    (setB g j d).testBit i = if i = j then d else g.testBit i := by
  unfold setB
  cases d with
  | true =>
      rw [if_pos rfl, Nat.testBit_lor, Nat.testBit_two_pow]
      by_cases h : i = j
      · subst h; simp
      · simp [Ne.symm h, h]
  | false =>
      rw [if_neg (by simp), Nat.testBit_land, Nat.testBit_xor, Nat.testBit_two_pow]
      have h255 : (2 ^ 64 - 1 : Nat).testBit i = decide (i < 64) :=
        Nat.testBit_two_pow_sub_one 64 i
      rw [h255]
      by_cases h : i = j
      · subst h; simp [hj]
      · by_cases hi : i < 64
        · simp [Ne.symm h, h, hi]
        · have hfb : g.testBit i = false := testBit_ge_64 hg (by omega)
          simp [Ne.symm h, h, hi, hfb]

theorem setB_lt {g : Nat} (hg : g < 2 ^ 64) {j : Nat} (hj : j < 64) (d : Bool) :
    setB g j d < 2 ^ 64 := by
  unfold setB
  cases d with
  | true =>
      rw [if_pos rfl]
      exact Nat.or_lt_two_pow hg (Nat.pow_lt_pow_right (by omega) hj)
  | false =>
      rw [if_neg (by simp)]
      exact Nat.lt_of_le_of_lt Nat.and_le_left hg

theorem setB_self {g : Nat} (hg : g < 2 ^ 64) {j : Nat} (hj : j < 64)
    (h : g.testBit j = true) : setB g j true = g := by
  apply Nat.eq_of_testBit_eq
  intro i
  rw [setB_testBit hg hj]
  by_cases hij : i = j
  · subst hij; simp [h]
  · simp [hij]

theorem asmRom_testBit : ∀ (rom : List Nat), (∀ x ∈ rom, x < 256) → ∀ (i : Nat),
    (asmRom rom).testBit i = (rom.getD (i / 8) 0).testBit (i % 8) := by
  intro rom
  induction rom with
  | nil => intro _ i; simp [asmRom, List.getD]
  | cons b rest ih =>
      intro h i
      have hb : b < 2 ^ 8 := h b (by simp)
      have hrw : asmRom (b :: rest) = 2 ^ 8 * asmRom rest + b := by
        simp [asmRom]; ring
      rw [hrw, Nat.testBit_mul_pow_two_add _ hb]
      by_cases hi : i < 8
      · rw [if_pos hi]
        have h1 : i / 8 = 0 := Nat.div_eq_of_lt hi
        have h2 : i % 8 = i := Nat.mod_eq_of_lt hi
        rw [h1, h2, List.getD_cons_zero]
      · rw [if_neg hi]
        rw [ih (fun x hx => h x (by simp [hx])) (i - 8)]
        have h1 : i / 8 = (i - 8) / 8 + 1 := by omega
        have h2 : i % 8 = (i - 8) % 8 := by omega
        rw [h1, h2, List.getD_cons_succ]

theorem getD_set_self {l : List Nat} {q v : Nat} (h : q < l.length) :
    (l.set q v).getD q 0 = v := by
  rw [List.getD_eq_getElem?_getD, List.getElem?_set_self (by simpa using h)]
  rfl

theorem getD_set_ne {l : List Nat} {q r v : Nat} (h : q ≠ r) :
    (l.set q v).getD r 0 = l.getD r 0 := by
  rw [List.getD_eq_getElem?_getD, List.getD_eq_getElem?_getD, List.getElem?_set_ne h]

theorem byte_or_testBit (b s t : Nat) :
    (b ||| 2 ^ s).testBit t = if t = s then true else b.testBit t := by
  rw [Nat.testBit_lor, Nat.testBit_two_pow]
  by_cases h : t = s
  · subst h; simp
  · simp [h, Ne.symm h]

theorem byte_and_testBit {b : Nat} (hb : b < 256) (s t : Nat) (hs : s < 8) :
    (b &&& (2 ^ s ^^^ 255)).testBit t = if t = s then false else b.testBit t := by
  rw [Nat.testBit_land, Nat.testBit_xor, Nat.testBit_two_pow]
  have h255 : (255 : Nat) = 2 ^ 8 - 1 := rfl
  rw [h255, Nat.testBit_two_pow_sub_one]
  by_cases h : t = s
  · subst h; simp [hs]
  · by_cases ht : t < 8
    · simp [h, Ne.symm h, ht]
    · have h256 : (256 : Nat) ≤ 2 ^ t := by
        calc (256 : Nat) = 2 ^ 8 := by norm_num
          _ ≤ 2 ^ t := Nat.pow_le_pow_right (by omega) (by omega)
      have hbt : b.testBit t = false := Nat.testBit_lt_two_pow (Nat.lt_of_lt_of_le hb h256)
      simp [h, hbt]

theorem asmRom_set {rom : List Nat} (hwf : romWF rom) {j : Nat} (hj : j < 64) (d : Bool) :
    asmRom (rom.set (j / 8) (if d then (rom.getD (j / 8) 0) ||| 2 ^ (j % 8)
      else (rom.getD (j / 8) 0) &&& (2 ^ (j % 8) ^^^ 255))) = setB (asmRom rom) j d := by
  have hq : j / 8 < rom.length := by rw [hwf.1]; omega
  have hnewv : (if d then (rom.getD (j / 8) 0) ||| 2 ^ (j % 8)
      else (rom.getD (j / 8) 0) &&& (2 ^ (j % 8) ^^^ 255)) < 256 := by
    cases d with
    | true =>
        rw [if_pos rfl]
        exact or_byte_lt (getD_lt hwf.2 _) (by
          have : (2 : Nat) ^ (j % 8) < 2 ^ 8 := Nat.pow_lt_pow_right (by omega) (by omega)
          simpa using this)
    | false => rw [if_neg (by simp)]; exact and_byte_lt (getD_lt hwf.2 _)
  have hwf' : romWF (rom.set (j / 8) _) := set_byte_wf hwf hnewv
  apply Nat.eq_of_testBit_eq
  intro i
  rw [asmRom_testBit _ hwf'.2 i, setB_testBit (asmRom_lt_64 hwf) hj,
    asmRom_testBit _ hwf.2 i]
  by_cases hqq : i / 8 = j / 8
  · rw [hqq, getD_set_self hq]
    cases d with
    | true =>
        rw [if_pos rfl, byte_or_testBit]
        by_cases hij : i = j
        · subst hij; simp
        · have : ¬(i % 8 = j % 8) := by omega
          simp [hij, this]
    | false =>
        rw [if_neg (by simp), byte_and_testBit (getD_lt hwf.2 _) _ _ (by omega)]
        by_cases hij : i = j
        · subst hij; simp
        · have : ¬(i % 8 = j % 8) := by omega
          simp [hij, this, hqq]
  · rw [getD_set_ne (fun h => hqq h.symm)]
    have hij : ¬(i = j) := by omega
    simp [hij]

/-! ## Fidelity of `searchLoop` on the simulated bus to the abstract walk -/

theorem mask_read_eq {rom : List Nat} (hwf : romWF rom) {j : Nat} (hj : j < 64) :
    ((rom.getD (j / 8) 0 &&& 2 ^ (j % 8)) != 0) = (asmRom rom).testBit j := by
  rw [asmRom_testBit _ hwf.2 j, Nat.and_two_pow]
  cases h : (rom.getD (j / 8) 0).testBit (j % 8) with
  | true => simp [h, Nat.ne_of_gt (Nat.two_pow_pos (j % 8))]
  | false => simp [h]

theorem mask_read_zero_iff {rom : List Nat} (hwf : romWF rom) {j : Nat} (hj : j < 64) :
    ((rom.getD (j / 8) 0 &&& 2 ^ (j % 8)) = 0) ↔ ((asmRom rom).testBit j = false) := by
  have h := mask_read_eq hwf hj
  cases ht : (asmRom rom).testBit j <;> rw [ht] at h <;> simp_all

theorem agreeBelow_setB {b g : Nat} (hg : g < 2 ^ 64) {j : Nat} (hj : j < 64) (d : Bool) :
    agreeBelow b (setB g j d) (j + 1) ↔ (agreeBelow b g j ∧ b.testBit j = d) := by
  constructor
  · intro h
    constructor
    · intro i hi
      rw [h i (by omega), setB_testBit hg hj]
      simp [Nat.ne_of_lt hi]
    · rw [h j (by omega), setB_testBit hg hj]
      simp
  · rintro ⟨h, hd⟩
    intro i hi
    rw [setB_testBit hg hj]
    by_cases hij : i = j
    · subst hij; simp [hd]
    · simp [hij]
      exact h i (by omega)

theorem filter_step (D : List Nat) {g : Nat} (hg : g < 2 ^ 64) {j : Nat} (hj : j < 64)
    (d : Bool) :
    (D.filter (fun b => decide (agreeBelow b g j))).filter (fun a => a.testBit j == d)
      = D.filter (fun b => decide (agreeBelow b (setB g j d) (j + 1))) := by
  rw [List.filter_filter]
  apply List.filter_congr
  intro b _
  rw [show ∀ (p q : Bool), (p && q) = (q && p) from fun p q => Bool.and_comm p q]
  cases hd : b.testBit j <;> cases hag : decide (agreeBelow b g j) <;>
    simp_all [agreeBelow_setB hg hj d] <;> cases d <;> simp_all

theorem P_not_both {D : List Nat} {g j : Nat}
    (hne : (D.filter (fun b => decide (agreeBelow b g j))) ≠ []) :
    (((D.filter (fun b => decide (agreeBelow b g j))).all (fun b => b.testBit j)) &&
      ((D.filter (fun b => decide (agreeBelow b g j))).all (fun b => !b.testBit j))) = false := by
  rcases hP : D.filter (fun b => decide (agreeBelow b g j)) with _ | ⟨w, rest⟩
  · exact absurd hP hne
  · cases hw : w.testBit j <;> simp [List.all_cons, hw]

theorem stepDir_eq (D : List Nat) (ld j : Nat) (rom : List Nat) (hwf : romWF rom)
    (hj : j < 64)
    (hne : (D.filter (fun b => decide (agreeBelow b (asmRom rom) j))) ≠ []) :
    stepDir ld (j + 1) (rom.getD (j / 8) 0) (2 ^ (j % 8))
      ((D.filter (fun b => decide (agreeBelow b (asmRom rom) j))).all (fun b => b.testBit j))
      ((D.filter (fun b => decide (agreeBelow b (asmRom rom) j))).all (fun b => !b.testBit j))
      = sdir D ld (asmRom rom) j := by
  have hnb := P_not_both hne
  unfold stepDir sdir
  cases hib : (D.filter (fun b => decide (agreeBelow b (asmRom rom) j))).all
      (fun b => b.testBit j) with
  | true =>
      have hcb : (D.filter (fun b => decide (agreeBelow b (asmRom rom) j))).all
          (fun b => !b.testBit j) = false := by
        rw [hib] at hnb; simpa using hnb
      simp [hib, hcb]
  | false =>
      cases hcb : (D.filter (fun b => decide (agreeBelow b (asmRom rom) j))).all
          (fun b => !b.testBit j) with
      | true => simp [hib, hcb]
      | false =>
          have hmr := mask_read_eq hwf hj
          rw [List.getD_eq_getElem?_getD] at hmr
          simp [hib, hcb, hmr]

theorem stepLz_eq (D : List Nat) (ld j lz : Nat) (rom : List Nat) (hwf : romWF rom)
    (hj : j < 64)
    (hne : (D.filter (fun b => decide (agreeBelow b (asmRom rom) j))) ≠ []) :
    stepLz ld (j + 1) lz (rom.getD (j / 8) 0) (2 ^ (j % 8))
      ((D.filter (fun b => decide (agreeBelow b (asmRom rom) j))).all (fun b => b.testBit j))
      ((D.filter (fun b => decide (agreeBelow b (asmRom rom) j))).all (fun b => !b.testBit j))
      = (if sdisc D (asmRom rom) j && !(sdir D ld (asmRom rom) j) then j + 1 else lz) := by
  have hnb := P_not_both hne
  unfold stepLz sdisc sdir
  cases hib : (D.filter (fun b => decide (agreeBelow b (asmRom rom) j))).all
      (fun b => b.testBit j) with
  | true =>
      have hcb : (D.filter (fun b => decide (agreeBelow b (asmRom rom) j))).all
          (fun b => !b.testBit j) = false := by
        rw [hib] at hnb; simpa using hnb
      simp [hib, hcb]
  | false =>
      cases hcb : (D.filter (fun b => decide (agreeBelow b (asmRom rom) j))).all
          (fun b => !b.testBit j) with
      | true => simp [hib, hcb]
      | false =>
          have hmr := mask_read_zero_iff hwf hj
          rw [List.getD_eq_getElem?_getD] at hmr
          simp [hib, hcb, hmr]

theorem mask_step {j : Nat} (hj : j < 64) :
    (if ((2 ^ (j % 8) <<< 1) % 256 == 0) = true then (j / 8 + 1, 1)
      else (j / 8, (2 ^ (j % 8) <<< 1) % 256)) = ((j + 1) / 8, (2 ^ ((j + 1) % 8) : Nat)) := by
  have hshift : (2 ^ (j % 8) <<< 1) = 2 ^ (j % 8 + 1) := by
    rw [Nat.shiftLeft_eq, show (2 : Nat) ^ 1 = 2 from rfl, ← Nat.pow_succ]
  by_cases h : j % 8 = 7
  · have hz : ((2 ^ (j % 8) <<< 1) % 256) = 0 := by rw [hshift, h]; norm_num
    rw [hz]
    have h1 : j / 8 + 1 = (j + 1) / 8 := by omega
    have h2 : (j + 1) % 8 = 0 := by omega
    rw [h1, h2]
    simp
  · have hlt : (2 : Nat) ^ (j % 8 + 1) < 256 := by
      calc (2 : Nat) ^ (j % 8 + 1) ≤ 2 ^ 7 := Nat.pow_le_pow_right (by omega) (by omega)
        _ < 256 := by norm_num
    have hz : ((2 ^ (j % 8) <<< 1) % 256) = 2 ^ (j % 8 + 1) := by
      rw [hshift, Nat.mod_eq_of_lt hlt]
    have hpos : 0 < (2 : Nat) ^ (j % 8 + 1) := Nat.two_pow_pos _
    have h1 : j / 8 = (j + 1) / 8 := by omega
    have h2 : (j + 1) % 8 = j % 8 + 1 := by omega
    rw [hz, h1, h2]
    simp [Nat.ne_of_gt hpos]

theorem set_or_wf {rom : List Nat} (hwf : romWF rom) {j : Nat} (hj : j < 64) :
    romWF (rom.set (j / 8) ((rom.getD (j / 8) 0) ||| 2 ^ (j % 8))) := by
  refine set_byte_wf hwf (or_byte_lt (getD_lt hwf.2 _) ?_)
  calc (2 : Nat) ^ (j % 8) ≤ 2 ^ 7 := Nat.pow_le_pow_right (by omega) (by omega)
    _ < 256 := by norm_num

theorem set_and_wf {rom : List Nat} (hwf : romWF rom) {j : Nat} (hj : j < 64) :
    romWF (rom.set (j / 8) ((rom.getD (j / 8) 0) &&& (2 ^ (j % 8) ^^^ 255))) :=
  set_byte_wf hwf (and_byte_lt (getD_lt hwf.2 _))

theorem asmRom_set_true {rom : List Nat} (hwf : romWF rom) {j : Nat} (hj : j < 64) :
    asmRom (rom.set (j / 8) ((rom.getD (j / 8) 0) ||| 2 ^ (j % 8)))
      = setB (asmRom rom) j true :=
  asmRom_set hwf hj true

theorem asmRom_set_false {rom : List Nat} (hwf : romWF rom) {j : Nat} (hj : j < 64) :
    asmRom (rom.set (j / 8) ((rom.getD (j / 8) 0) &&& (2 ^ (j % 8) ^^^ 255)))
      = setB (asmRom rom) j false :=
  asmRom_set hwf hj false

theorem exists_next_witness (D : List Nat) (ld : Nat) {g j : Nat}
    (hne : (D.filter (fun b => decide (agreeBelow b g j))) ≠ []) :
    ∃ b ∈ D.filter (fun b => decide (agreeBelow b g j)),
      b.testBit j = sdir D ld g j := by
  unfold sdir
  dsimp only
  cases hib : (D.filter (fun b => decide (agreeBelow b g j))).all (fun b => b.testBit j) with
  | true =>
      obtain ⟨w, hw⟩ := List.exists_mem_of_ne_nil _ hne
      rw [if_pos rfl]
      exact ⟨w, hw, List.all_eq_true.mp hib w hw⟩
  | false =>
      obtain ⟨x, hx, hxb⟩ := List.all_eq_false.mp hib
      have hxb' : x.testBit j = false := by simpa using hxb
      cases hcb : (D.filter (fun b => decide (agreeBelow b g j))).all
          (fun b => !b.testBit j) with
      | true =>
          rw [if_neg (show ¬(false = true) by simp), if_pos rfl]
          exact ⟨x, hx, hxb'⟩
      | false =>
          obtain ⟨y, hy, hyb⟩ := List.all_eq_false.mp hcb
          have hyb' : y.testBit j = true := by simpa using hyb
          rw [if_neg (show ¬(false = true) by simp), if_neg (show ¬(false = true) by simp)]
          cases hdd : (if j + 1 < ld then g.testBit j else ((j + 1 == ld : Bool))) with
          | true => exact ⟨y, hy, hyb'⟩
          | false => exact ⟨x, hx, hxb'⟩

theorem searchLoop_sim (D : List Nat) (ld : Nat) :
    ∀ (n j : Nat) (rom : List Nat) (lz : Nat),
      n + j = 64 → romWF rom →
      (D.filter (fun b => decide (agreeBelow b (asmRom rom) j))) ≠ [] →
      ∃ (bus' : SimBus) (rom' : List Nat),
        searchLoop simBusModel ld n
            ⟨D, D.filter (fun b => decide (agreeBelow b (asmRom rom) j)), j, false⟩
            (j + 1) lz (j / 8) (2 ^ (j % 8)) rom
          = (bus', 65, (swalk D ld n j (asmRom rom) lz).2, rom') ∧
        romWF rom' ∧ asmRom rom' = (swalk D ld n j (asmRom rom) lz).1 ∧
        bus'.devices = D := by
  intro n
  induction n with
  | zero =>
      intro j rom lz hnj hwf _
      have hj : j = 64 := by omega
      subst hj
      refine ⟨⟨D, D.filter (fun b => decide (agreeBelow b (asmRom rom) 64)), 64, false⟩,
        rom, ?_, hwf, ?_, rfl⟩ <;> simp [searchLoop, swalk]
  | succ n ih =>
      intro j rom lz hnj hwf hne
      have hj : j < 64 := by omega
      have h1 : simBusModel.read_bit
          ⟨D, D.filter (fun b => decide (agreeBelow b (asmRom rom) j)), j, false⟩
          = (⟨D, D.filter (fun b => decide (agreeBelow b (asmRom rom) j)), j, true⟩,
             (D.filter (fun b => decide (agreeBelow b (asmRom rom) j))).all
               (fun b => b.testBit j)) := rfl
      have h2 : simBusModel.read_bit
          ⟨D, D.filter (fun b => decide (agreeBelow b (asmRom rom) j)), j, true⟩
          = (⟨D, D.filter (fun b => decide (agreeBelow b (asmRom rom) j)), j, false⟩,
             (D.filter (fun b => decide (agreeBelow b (asmRom rom) j))).all
               (fun b => !b.testBit j)) := rfl
      rw [searchLoop_cont h1 h2 (P_not_both hne)]
      dsimp only
      rw [stepDir_eq D ld j rom hwf hj hne, stepLz_eq D ld j lz rom hwf hj hne,
        mask_step hj]
      have hwb : simBusModel.write_bit
          ⟨D, D.filter (fun b => decide (agreeBelow b (asmRom rom) j)), j, false⟩
          (sdir D ld (asmRom rom) j)
          = ⟨D, D.filter (fun b => decide (agreeBelow b
              (setB (asmRom rom) j (sdir D ld (asmRom rom) j)) (j + 1))), j + 1, false⟩ := by
        show (⟨D, (D.filter (fun b => decide (agreeBelow b (asmRom rom) j))).filter
            (fun a => a.testBit j == sdir D ld (asmRom rom) j), j + 1, false⟩ : SimBus) = _
        rw [filter_step D (asmRom_lt_64 hwf) hj]
      rw [hwb]
      have hrom' : romWF (if sdir D ld (asmRom rom) j then
          rom.set (j / 8) ((rom.getD (j / 8) 0) ||| 2 ^ (j % 8))
        else rom.set (j / 8) ((rom.getD (j / 8) 0) &&& (2 ^ (j % 8) ^^^ 255))) := by
        split
        · exact set_or_wf hwf hj
        · exact set_and_wf hwf hj
      have hasm' : asmRom (if sdir D ld (asmRom rom) j then
          rom.set (j / 8) ((rom.getD (j / 8) 0) ||| 2 ^ (j % 8))
        else rom.set (j / 8) ((rom.getD (j / 8) 0) &&& (2 ^ (j % 8) ^^^ 255)))
          = setB (asmRom rom) j (sdir D ld (asmRom rom) j) := by
        cases hdd : sdir D ld (asmRom rom) j with
        | true => rw [if_pos rfl]; exact asmRom_set_true hwf hj
        | false => rw [if_neg (show ¬(false = true) by simp)]; exact asmRom_set_false hwf hj
      have hne' : (D.filter (fun b => decide (agreeBelow b
          (setB (asmRom rom) j (sdir D ld (asmRom rom) j)) (j + 1)))) ≠ [] := by
        obtain ⟨b, hb, hbd⟩ := exists_next_witness D ld hne
        apply List.ne_nil_of_mem (a := b)
        rw [List.mem_filter]
        obtain ⟨hbD, hbag⟩ := List.mem_filter.mp hb
        refine ⟨hbD, ?_⟩
        rw [decide_eq_true_eq] at hbag ⊢
        exact (agreeBelow_setB (asmRom_lt_64 hwf) hj _).mpr ⟨hbag, hbd⟩
      simp only [swalk]
      by_cases hcont : j + 1 < 64
      · rw [if_pos (show (j + 1) / 8 < 8 by omega)]
        rw [← hasm']
        exact ih (j + 1) _ _ (by omega) hrom' (by rw [hasm']; exact hne')
      · rw [if_neg (show ¬((j + 1) / 8 < 8) by omega)]
        have hn0 : n = 0 := by omega
        subst hn0
        refine ⟨⟨D, D.filter (fun b => decide (agreeBelow b
            (setB (asmRom rom) j (sdir D ld (asmRom rom) j)) (j + 1))), j + 1, false⟩,
          (if sdir D ld (asmRom rom) j then
            rom.set (j / 8) ((rom.getD (j / 8) 0) ||| 2 ^ (j % 8))
          else rom.set (j / 8) ((rom.getD (j / 8) 0) &&& (2 ^ (j % 8) ^^^ 255))),
          ?_, hrom', ?_, rfl⟩
        · simp only [swalk]
          have h65 : j + 1 + 1 = 65 := by omega
          rw [h65]
        · simp only [swalk]
          exact hasm'

/-! ## Order and agreement lemmas for the abstract walk -/

theorem agreeBelow_refl (a k : Nat) : agreeBelow a a k := fun _ _ => rfl

theorem agreeBelow_symm {a b k : Nat} (h : agreeBelow a b k) : agreeBelow b a k :=
  fun i hi => (h i hi).symm

theorem agreeBelow_mono {a b k j : Nat} (h : agreeBelow a b k) (hj : j ≤ k) :
    agreeBelow a b j := fun i hi => h i (by omega)

theorem agreeBelow_trans {a b c k : Nat} (h1 : agreeBelow a b k) (h2 : agreeBelow b c k) :
    agreeBelow a c k := fun i hi => (h1 i hi).trans (h2 i hi)

theorem agreeBelow_64_eq {a b : Nat} (ha : a < 2 ^ 64) (hb : b < 2 ^ 64)
    (h : agreeBelow a b 64) : a = b := by
  apply Nat.eq_of_testBit_eq
  intro i
  by_cases hi : i < 64
  · exact h i hi
  · rw [testBit_ge_64 ha (by omega), testBit_ge_64 hb (by omega)]

theorem filter_ne_nil_iff (D : List Nat) (g j : Nat) :
    (D.filter (fun b => decide (agreeBelow b g j))) ≠ [] ↔ ∃ w ∈ D, agreeBelow w g j := by
  rw [Ne, List.filter_eq_nil_iff]
  constructor
  · intro h
    by_contra hno
    push_neg at hno
    exact h (fun a ha => by simpa using hno a ha)
  · rintro ⟨w, hw, hag⟩ hall
    exact absurd (by simpa using hall w hw) (by simpa using hag)

theorem lexLt_irrefl (a : Nat) : ¬lexLt a a := by
  rintro ⟨j, _, _, h1, h2⟩
  rw [h1] at h2
  exact absurd h2 (by simp)

theorem lexLt_asymm {a b : Nat} (h1 : lexLt a b) (h2 : lexLt b a) : False := by
  obtain ⟨j1, hj1, hag1, ha1, hb1⟩ := h1
  obtain ⟨j2, hj2, hag2, hb2, ha2⟩ := h2
  rcases Nat.lt_trichotomy j1 j2 with h | h | h
  · have := hag2 j1 h
    rw [ha1] at this; rw [hb1] at this
    exact absurd this (by simp)
  · subst h
    rw [ha1] at ha2
    exact absurd ha2 (by simp)
  · have := hag1 j2 h
    rw [hb2] at this; rw [ha2] at this
    exact absurd this (by simp)

theorem lexLt_trans {a b c : Nat} (h1 : lexLt a b) (h2 : lexLt b c) : lexLt a c := by
  obtain ⟨j1, hj1, hag1, ha1, hb1⟩ := h1
  obtain ⟨j2, hj2, hag2, hb2, hc2⟩ := h2
  rcases Nat.lt_trichotomy j1 j2 with h | h | h
  · refine ⟨j1, hj1, ?_, ha1, ?_⟩
    · exact agreeBelow_trans hag1 (agreeBelow_mono hag2 (by omega))
    · rw [← hag2 j1 h]; exact hb1
  · subst h
    rw [hb1] at hb2
    exact absurd hb2 (by simp)
  · refine ⟨j2, hj2, ?_, ?_, hc2⟩
    · exact agreeBelow_trans (agreeBelow_mono hag1 (by omega)) hag2
    · rw [hag1 j2 h]; exact hb2

theorem lexLt_total {a b : Nat} (ha : a < 2 ^ 64) (hb : b < 2 ^ 64) (hne : a ≠ b) :
    lexLt a b ∨ lexLt b a := by
  have hex : ∃ j, a.testBit j ≠ b.testBit j := by
    by_contra h
    push_neg at h
    exact hne (Nat.eq_of_testBit_eq h)
  have hspec := Nat.find_spec hex
  have hag : agreeBelow a b (Nat.find hex) := by
    intro i hi
    have := Nat.find_min hex hi
    by_contra hcon
    exact this hcon
  have hj : Nat.find hex < 64 := by
    by_contra hge
    apply hspec
    rw [testBit_ge_64 ha (by omega), testBit_ge_64 hb (by omega)]
  cases hab : a.testBit (Nat.find hex) with
  | false =>
      left
      refine ⟨Nat.find hex, hj, hag, hab, ?_⟩
      cases hbb : b.testBit (Nat.find hex) with
      | false => rw [hab, hbb] at hspec; exact absurd rfl hspec
      | true => rfl
  | true =>
      right
      refine ⟨Nat.find hex, hj, agreeBelow_symm hag, ?_, hab⟩
      cases hbb : b.testBit (Nat.find hex) with
      | false => rfl
      | true => rw [hab, hbb] at hspec; exact absurd rfl hspec

theorem mem_agree_filter {D : List Nat} {g j b : Nat} :
    b ∈ D.filter (fun b => decide (agreeBelow b g j)) ↔ (b ∈ D ∧ agreeBelow b g j) := by
  rw [List.mem_filter, decide_eq_true_eq]

/-- Three-way case analysis of one walk step: all participants agree on 1,
all agree on 0 (or there are none), or there is a discrepancy. -/
theorem walk_step_cases (D : List Nat) (ld g j : Nat) :
    (sdir D ld g j = true ∧ sdisc D g j = false ∧
      (∀ b ∈ D, agreeBelow b g j → b.testBit j = true)) ∨
    (sdir D ld g j = false ∧ sdisc D g j = false ∧
      (∀ b ∈ D, agreeBelow b g j → b.testBit j = false)) ∨
    (sdisc D g j = true ∧
      sdir D ld g j = (if j + 1 < ld then g.testBit j else ((j + 1 == ld : Bool))) ∧
      (∃ b ∈ D, agreeBelow b g j ∧ b.testBit j = true) ∧
      (∃ b ∈ D, agreeBelow b g j ∧ b.testBit j = false)) := by
  unfold sdir sdisc
  dsimp only
  cases hib : (D.filter (fun b => decide (agreeBelow b g j))).all (fun b => b.testBit j) with
  | true =>
      left
      refine ⟨by rw [if_pos rfl], by simp, ?_⟩
      intro b hb hag
      exact List.all_eq_true.mp hib b (mem_agree_filter.mpr ⟨hb, hag⟩)
  | false =>
      cases hcb : (D.filter (fun b => decide (agreeBelow b g j))).all
          (fun b => !b.testBit j) with
      | true =>
          right; left
          refine ⟨by rw [if_neg (show ¬(false = true) by simp), if_pos rfl], by simp, ?_⟩
          intro b hb hag
          have := List.all_eq_true.mp hcb b (mem_agree_filter.mpr ⟨hb, hag⟩)
          simpa using this
      | false =>
          right; right
          obtain ⟨x, hx, hxb⟩ := List.all_eq_false.mp hib
          obtain ⟨y, hy, hyb⟩ := List.all_eq_false.mp hcb
          obtain ⟨hxD, hxag⟩ := mem_agree_filter.mp hx
          obtain ⟨hyD, hyag⟩ := mem_agree_filter.mp hy
          refine ⟨by simp, ?_, ⟨y, hyD, hyag, by simpa using hyb⟩,
            ⟨x, hxD, hxag, by simpa using hxb⟩⟩
          rw [if_neg (show ¬(false = true) by simp), if_neg (show ¬(false = true) by simp)]

theorem altAt_iff_of_agree {D : List Nat} {a g j : Nat} (hag : agreeBelow a g j) :
    altAt D a j ↔ (a.testBit j = false ∧ ∃ b ∈ D, agreeBelow b g j ∧ b.testBit j = true) := by
  unfold altAt
  constructor
  · rintro ⟨hb, b, hbD, hba, hbt⟩
    exact ⟨hb, b, hbD, agreeBelow_trans hba hag, hbt⟩
  · rintro ⟨hb, b, hbD, hbg, hbt⟩
    exact ⟨hb, b, hbD, agreeBelow_trans hbg (agreeBelow_symm hag), hbt⟩

/-- Fresh-region walk: starting at a position at or past `last_discrepancy`,
the walk finds the `lexLt`-least device extending the current prefix, and the
final `last_zero` records the highest remaining `altAt` position (or keeps the
accumulator when there is none at or past `j`). -/
theorem swalk_fresh (D : List Nat) (ld : Nat) (hD : ∀ b ∈ D, b < 2 ^ 64) :
    ∀ (n j g lz : Nat), n + j = 64 → g < 2 ^ 64 → ld ≤ j →
      (∃ w ∈ D, agreeBelow w g j) →
      (swalk D ld n j g lz).1 ∈ D ∧
      agreeBelow (swalk D ld n j g lz).1 g j ∧
      (∀ b ∈ D, agreeBelow b g j →
        b = (swalk D ld n j g lz).1 ∨ lexLt (swalk D ld n j g lz).1 b) ∧
      (((swalk D ld n j g lz).2 = lz ∧
          ∀ k, j ≤ k → k < 64 → ¬altAt D (swalk D ld n j g lz).1 k) ∨
       (j < (swalk D ld n j g lz).2 ∧ (swalk D ld n j g lz).2 ≤ 64 ∧
         altAt D (swalk D ld n j g lz).1 ((swalk D ld n j g lz).2 - 1) ∧
         ∀ k, (swalk D ld n j g lz).2 ≤ k → k < 64 →
           ¬altAt D (swalk D ld n j g lz).1 k)) := by
  intro n
  induction n with
  | zero =>
      intro j g lz hnj hg hld hwit
      obtain ⟨w, hw, hag⟩ := hwit
      have hj : j = 64 := by omega
      subst hj
      have hwg : w = g := agreeBelow_64_eq (hD w hw) hg hag
      refine ⟨hwg ▸ hw, agreeBelow_refl _ _, ?_, Or.inl ⟨rfl, ?_⟩⟩
      · intro b hb hbag
        exact Or.inl (agreeBelow_64_eq (hD b hb) hg hbag)
      · intro k hk1 hk2
        exact absurd hk2 (by omega)
  | succ n ih =>
      intro j g lz hnj hg hld hwit
      have hj : j < 64 := by omega
      simp only [swalk]
      rcases walk_step_cases D ld g j with ⟨hd, hdisc, hall⟩ | ⟨hd, hdisc, hall⟩ |
        ⟨hdisc, hdrep, hex1, hex0⟩
      · -- all remaining devices have bit 1 at j
        have hstep : (if (sdisc D g j && !sdir D ld g j) = true then j + 1 else lz) = lz := by
          rw [hdisc]; rfl
        rw [hstep, hd]
        obtain ⟨w, hw, hagw⟩ := hwit
        have hg₁ : setB g j true < 2 ^ 64 := setB_lt hg hj true
        obtain ⟨hmem, hagree, hmin, hlzc⟩ := ih (j + 1) (setB g j true) lz (by omega) hg₁
          (by omega) ⟨w, hw, (agreeBelow_setB hg hj true).mpr ⟨hagw, hall w hw hagw⟩⟩
        have hag_setB : agreeBelow (setB g j true) g j := by
          intro i hi
          rw [setB_testBit hg hj]
          simp [show i ≠ j by omega]
        have hagree_j : agreeBelow (swalk D ld n (j + 1) (setB g j true) lz).1 g j :=
          agreeBelow_trans (agreeBelow_mono hagree (by omega)) hag_setB
        have hbitj : (swalk D ld n (j + 1) (setB g j true) lz).1.testBit j = true := by
          rw [hagree j (by omega), setB_testBit hg hj]
          simp
        refine ⟨hmem, hagree_j, ?_, ?_⟩
        · intro b hb hbag
          by_cases hbit : b.testBit j = true
          · exact hmin b hb ((agreeBelow_setB hg hj true).mpr ⟨hbag, hbit⟩)
          · exact absurd (hall b hb hbag) hbit
        · have hnoJ : ¬altAt D (swalk D ld n (j + 1) (setB g j true) lz).1 j := by
            rintro ⟨hfalse, _⟩
            rw [hbitj] at hfalse
            exact absurd hfalse (by simp)
          rcases hlzc with ⟨hlzeq, hnone⟩ | ⟨hgt, hle, halt, hnone⟩
          · left
            refine ⟨hlzeq, ?_⟩
            intro k hk1 hk2
            by_cases hkj : k = j
            · subst hkj; exact hnoJ
            · exact hnone k (by omega) hk2
          · exact Or.inr ⟨by omega, hle, halt, hnone⟩
      · -- all remaining devices have bit 0 at j
        have hstep : (if (sdisc D g j && !sdir D ld g j) = true then j + 1 else lz) = lz := by
          rw [hdisc]; rfl
        rw [hstep, hd]
        obtain ⟨w, hw, hagw⟩ := hwit
        have hg₁ : setB g j false < 2 ^ 64 := setB_lt hg hj false
        obtain ⟨hmem, hagree, hmin, hlzc⟩ := ih (j + 1) (setB g j false) lz (by omega) hg₁
          (by omega) ⟨w, hw, (agreeBelow_setB hg hj false).mpr ⟨hagw, hall w hw hagw⟩⟩
        have hag_setB : agreeBelow (setB g j false) g j := by
          intro i hi
          rw [setB_testBit hg hj]
          simp [show i ≠ j by omega]
        have hagree_j : agreeBelow (swalk D ld n (j + 1) (setB g j false) lz).1 g j :=
          agreeBelow_trans (agreeBelow_mono hagree (by omega)) hag_setB
        refine ⟨hmem, hagree_j, ?_, ?_⟩
        · intro b hb hbag
          by_cases hbit : b.testBit j = false
          · exact hmin b hb ((agreeBelow_setB hg hj false).mpr ⟨hbag, hbit⟩)
          · exact absurd (hall b hb hbag) hbit
        · have hnoJ : ¬altAt D (swalk D ld n (j + 1) (setB g j false) lz).1 j := by
            intro halt
            obtain ⟨_, b, hbD, hbag', hbt⟩ :=
              (altAt_iff_of_agree hagree_j).mp halt
            rw [hall b hbD hbag'] at hbt
            exact absurd hbt (by simp)
          rcases hlzc with ⟨hlzeq, hnone⟩ | ⟨hgt, hle, halt, hnone⟩
          · left
            refine ⟨hlzeq, ?_⟩
            intro k hk1 hk2
            by_cases hkj : k = j
            · subst hkj; exact hnoJ
            · exact hnone k (by omega) hk2
          · exact Or.inr ⟨by omega, hle, halt, hnone⟩
      · -- discrepancy at j: in the fresh region the walk takes 0
        have hd : sdir D ld g j = false := by
          rw [hdrep, if_neg (show ¬(j + 1 < ld) by omega)]
          simp
          omega
        have hstep : (if (sdisc D g j && !sdir D ld g j) = true then j + 1 else lz)
            = j + 1 := by
          rw [hdisc, hd]; rfl
        rw [hstep, hd]
        obtain ⟨b1, hb1D, hb1ag, hb1t⟩ := hex1
        obtain ⟨b0, hb0D, hb0ag, hb0f⟩ := hex0
        have hg₁ : setB g j false < 2 ^ 64 := setB_lt hg hj false
        obtain ⟨hmem, hagree, hmin, hlzc⟩ := ih (j + 1) (setB g j false) (j + 1) (by omega)
          hg₁ (by omega) ⟨b0, hb0D, (agreeBelow_setB hg hj false).mpr ⟨hb0ag, hb0f⟩⟩
        have hag_setB : agreeBelow (setB g j false) g j := by
          intro i hi
          rw [setB_testBit hg hj]
          simp [show i ≠ j by omega]
        have hagree_j : agreeBelow (swalk D ld n (j + 1) (setB g j false) (j + 1)).1 g j :=
          agreeBelow_trans (agreeBelow_mono hagree (by omega)) hag_setB
        have hbitj : (swalk D ld n (j + 1) (setB g j false) (j + 1)).1.testBit j = false := by
          rw [hagree j (by omega), setB_testBit hg hj]
          simp
        refine ⟨hmem, hagree_j, ?_, ?_⟩
        · intro b hb hbag
          by_cases hbit : b.testBit j = false
          · exact hmin b hb ((agreeBelow_setB hg hj false).mpr ⟨hbag, hbit⟩)
          · right
            have hbt : b.testBit j = true := by
              cases hbb : b.testBit j with
              | false => exact absurd hbb hbit
              | true => rfl
            exact ⟨j, hj, agreeBelow_trans hagree_j (agreeBelow_symm hbag), hbitj, hbt⟩
        · have hyesJ : altAt D (swalk D ld n (j + 1) (setB g j false) (j + 1)).1 j :=
            (altAt_iff_of_agree hagree_j).mpr ⟨hbitj, b1, hb1D, hb1ag, hb1t⟩
          rcases hlzc with ⟨hlzeq, hnone⟩ | ⟨hgt, hle, halt, hnone⟩
          · right
            rw [hlzeq]
            refine ⟨by omega, by omega, ?_, ?_⟩
            · simpa using hyesJ
            · intro k hk1 hk2
              exact hnone k hk1 hk2
          · exact Or.inr ⟨by omega, hle, halt, hnone⟩

theorem setB_id {g : Nat} (hg : g < 2 ^ 64) {j : Nat} (hj : j < 64) {d : Bool}
    (h : g.testBit j = d) : setB g j d = g := by
  apply Nat.eq_of_testBit_eq
  intro i
  rw [setB_testBit hg hj]
  by_cases hij : i = j
  · subst hij; simp [h]
  · simp [hij]

theorem altAt_congr {D : List Nat} {a a' k : Nat} (h : agreeBelow a a' (k + 1)) :
    altAt D a k ↔ altAt D a' k := by
  unfold altAt
  constructor
  · rintro ⟨hb, b, hbD, hba, hbt⟩
    refine ⟨by rw [← h k (by omega)]; exact hb, b, hbD, ?_, hbt⟩
    exact agreeBelow_trans hba (agreeBelow_mono h (by omega))
  · rintro ⟨hb, b, hbD, hba, hbt⟩
    refine ⟨by rw [h k (by omega)]; exact hb, b, hbD, ?_, hbt⟩
    exact agreeBelow_trans hba (agreeBelow_mono (agreeBelow_symm h) (by omega))

theorem replay_step (D : List Nat) (ld : Nat) {r j : Nat} (hrD : r ∈ D)
    (hjlt : j + 1 < ld) :
    sdir D ld r j = r.testBit j ∧
    ((sdisc D r j && !sdir D ld r j) = true ↔ altAt D r j) := by
  rcases walk_step_cases D ld r j with ⟨hd, hdisc, hall⟩ | ⟨hd, hdisc, hall⟩ |
    ⟨hdisc, hdrep, hex1, hex0⟩
  · have hbit := hall r hrD (agreeBelow_refl r j)
    refine ⟨by rw [hd, hbit], ?_⟩
    rw [hdisc]
    constructor
    · intro h; simp at h
    · rintro ⟨hf, _⟩
      rw [hbit] at hf
      exact absurd hf (by simp)
  · have hbit := hall r hrD (agreeBelow_refl r j)
    refine ⟨by rw [hd, hbit], ?_⟩
    rw [hdisc]
    constructor
    · intro h; simp at h
    · rintro ⟨_, b, hbD, hbag, hbt⟩
      rw [hall b hbD hbag] at hbt
      exact absurd hbt (by simp)
  · have hdir : sdir D ld r j = r.testBit j := by rw [hdrep, if_pos hjlt]
    refine ⟨hdir, ?_⟩
    rw [hdisc, hdir]
    cases hrb : r.testBit j with
    | true =>
        constructor
        · intro h; simp at h
        · rintro ⟨hf, _⟩
          rw [hrb] at hf
          exact absurd hf (by simp)
    | false =>
        constructor
        · intro _; exact ⟨hrb, hex1⟩
        · intro _; rfl

theorem pivot_step (D : List Nat) (ld : Nat) {r j : Nat} (hrD : r ∈ D)
    (hjeq : j + 1 = ld) (halt : altAt D r j) :
    sdir D ld r j = true ∧ (sdisc D r j && !sdir D ld r j) = false := by
  obtain ⟨hrb, b1, hb1D, hb1ag, hb1t⟩ := halt
  rcases walk_step_cases D ld r j with ⟨hd, hdisc, hall⟩ | ⟨hd, hdisc, hall⟩ |
    ⟨hdisc, hdrep, hex1, hex0⟩
  · have := hall r hrD (agreeBelow_refl r j)
    rw [hrb] at this
    exact absurd this (by simp)
  · have := hall b1 hb1D hb1ag
    rw [hb1t] at this
    exact absurd this (by simp)
  · have hdir : sdir D ld r j = true := by
      rw [hdrep, if_neg (show ¬(j + 1 < ld) by omega), hjeq]
      simp
    exact ⟨hdir, by rw [hdisc, hdir]; rfl⟩

/-- Replay-region walk: starting below `last_discrepancy` with the previous
address `r` in the buffer, the walk replays `r` up to `last_discrepancy - 1`,
takes the 1 branch there, and then finds the `lexLt`-least device above `r`;
the final `last_zero` satisfies `discSpec` for the found address. -/
theorem swalk_replay (D : List Nat) (ld : Nat) (hD : ∀ b ∈ D, b < 2 ^ 64)
    (r : Nat) (hrD : r ∈ D) (hld1 : 1 ≤ ld) (hld64 : ld ≤ 64)
    (haltLd : altAt D r (ld - 1))
    (hmax : ∀ k, ld ≤ k → k < 64 → ¬altAt D r k) :
    ∀ (n j lz : Nat), n + j = 64 → j ≤ ld - 1 →
      ((lz = 0 ∧ ∀ k, k < j → ¬altAt D r k) ∨
       (0 < lz ∧ lz ≤ j ∧ altAt D r (lz - 1) ∧ ∀ k, lz ≤ k → k < j → ¬altAt D r k)) →
      (swalk D ld n j r lz).1 ∈ D ∧
      lexLt r (swalk D ld n j r lz).1 ∧
      (∀ b ∈ D, lexLt r b →
        b = (swalk D ld n j r lz).1 ∨ lexLt (swalk D ld n j r lz).1 b) ∧
      discSpec D (swalk D ld n j r lz).1 (swalk D ld n j r lz).2 := by
  intro n
  induction n with
  | zero =>
      intro j lz hnj hjld _
      exfalso
      omega
  | succ n ih =>
      intro j lz hnj hjld hpre
      have hj : j < 64 := by omega
      simp only [swalk]
      by_cases hpivot : j + 1 = ld
      · have haltJ : altAt D r j := by
          have hldj : ld - 1 = j := by omega
          rw [← hldj]
          exact haltLd
        obtain ⟨hdir, hnorec⟩ := pivot_step D ld hrD hpivot haltJ
        rw [hnorec, if_neg (show ¬(false = true) by simp), hdir]
        obtain ⟨hrb, b1, hb1D, hb1ag, hb1t⟩ := haltJ
        have hg₁ : setB r j true < 2 ^ 64 := setB_lt (hD r hrD) hj true
        obtain ⟨hmem, hagree, hmin, hlzc⟩ := swalk_fresh D ld hD n (j + 1) (setB r j true)
          lz (by omega) hg₁ (by omega)
          ⟨b1, hb1D, (agreeBelow_setB (hD r hrD) hj true).mpr ⟨hb1ag, hb1t⟩⟩
        have hagr : agreeBelow (setB r j true) r j := by
          intro i hi
          rw [setB_testBit (hD r hrD) hj]
          simp [show i ≠ j by omega]
        have hagree_rj : agreeBelow (swalk D ld n (j + 1) (setB r j true) lz).1 r j :=
          agreeBelow_trans (agreeBelow_mono hagree (by omega)) hagr
        have hbitj : (swalk D ld n (j + 1) (setB r j true) lz).1.testBit j = true := by
          rw [hagree j (by omega), setB_testBit (hD r hrD) hj]
          simp
        refine ⟨hmem, ⟨j, hj, agreeBelow_symm hagree_rj, hrb, hbitj⟩, ?_, ?_⟩
        · intro b hb hrb'
          obtain ⟨p, hp64, hagp, hrp, hbp⟩ := hrb'
          have haltp : altAt D r p := ⟨hrp, b, hb, agreeBelow_symm hagp, hbp⟩
          have hpld : p < ld := by
            by_contra hge
            exact hmax p (by omega) hp64 haltp
          by_cases hpj : p = j
          · subst hpj
            exact hmin b hb ((agreeBelow_setB (hD r hrD) hj true).mpr
              ⟨agreeBelow_symm hagp, hbp⟩)
          · have hpj' : p < j := by omega
            right
            refine ⟨p, hp64, ?_, ?_, hbp⟩
            · exact agreeBelow_trans (agreeBelow_mono hagree_rj (by omega)) hagp
            · rw [hagree_rj p hpj']
              exact hrp
        · rcases hlzc with ⟨hlzeq, hnone⟩ | ⟨hgt, hle, halt', hnone⟩
          · have hnoJ : ¬altAt D (swalk D ld n (j + 1) (setB r j true) lz).1 j := by
              rintro ⟨hf, _⟩
              rw [hbitj] at hf
              exact absurd hf (by simp)
            have hcongr : ∀ k, k < j →
                (altAt D (swalk D ld n (j + 1) (setB r j true) lz).1 k ↔ altAt D r k) := by
              intro k hk
              exact altAt_congr (agreeBelow_mono hagree_rj (by omega))
            rcases hpre with ⟨hlz0, hprenone⟩ | ⟨hlzpos, hlzle, hpalt, hprenone⟩
            · left
              refine ⟨by rw [hlzeq, hlz0], ?_⟩
              intro k hk64
              by_cases hkj : k < j
              · rw [hcongr k hkj]
                exact hprenone k hkj
              · by_cases hkj2 : k = j
                · subst hkj2; exact hnoJ
                · exact hnone k (by omega) hk64
            · right
              rw [hlzeq]
              refine ⟨hlzpos, by omega, ?_, ?_⟩
              · rw [hcongr (lz - 1) (by omega)]
                exact hpalt
              · intro k hk1 hk64
                by_cases hkj : k < j
                · rw [hcongr k hkj]
                  exact hprenone k hk1 hkj
                · by_cases hkj2 : k = j
                  · subst hkj2; exact hnoJ
                  · exact hnone k (by omega) hk64
          · exact Or.inr ⟨by omega, hle, halt', hnone⟩
      · have hjlt : j + 1 < ld := by omega
        obtain ⟨hdir, hrec⟩ := replay_step D ld hrD hjlt
        by_cases haltJ : altAt D r j
        · have hrec1 : (sdisc D r j && !sdir D ld r j) = true := hrec.mpr haltJ
          rw [hrec1, if_pos rfl, hdir, setB_id (hD r hrD) hj rfl]
          apply ih (j + 1) (j + 1) (by omega) (by omega)
          right
          refine ⟨by omega, by omega, by simpa using haltJ, ?_⟩
          intro k hk1 hk2
          exact absurd hk2 (by omega)
        · have hrec0 : (sdisc D r j && !sdir D ld r j) = false := by
            cases hv : (sdisc D r j && !sdir D ld r j) with
            | false => rfl
            | true => exact absurd (hrec.mp hv) haltJ
          rw [hrec0, if_neg (show ¬(false = true) by simp), hdir,
            setB_id (hD r hrD) hj rfl]
          apply ih (j + 1) lz (by omega) (by omega)
          rcases hpre with ⟨hlz0, hprenone⟩ | ⟨hlzpos, hlzle, hpalt, hprenone⟩
          · left
            refine ⟨hlz0, ?_⟩
            intro k hk
            by_cases hkj : k = j
            · subst hkj; exact haltJ
            · exact hprenone k (by omega)
          · right
            refine ⟨hlzpos, by omega, hpalt, ?_⟩
            intro k hk1 hk2
            by_cases hkj : k = j
            · subst hkj; exact haltJ
            · exact hprenone k hk1 (by omega)

/-- Behaviour of one `onewire_search_next` call on the simulated bus when the
state is not exhausted and the abstract walk lands on a device: the call
returns that device and commits the walk's `last_zero`. -/
theorem search_next_sim (D : List Nat) (hne : D ≠ [])
    (hfam : ∀ b ∈ D, b % 256 ≠ 0) (bus : SimBus) (hdev : bus.devices = D)
    (st : onewire_search_t) (hldf : st.last_device_found = false) (hwf : romWF st.rom_no)
    (hgD : (swalk D st.last_discrepancy 64 0 (asmRom st.rom_no) 0).1 ∈ D) :
    ∃ (bus' : SimBus) (st' : onewire_search_t),
      bus'.devices = D ∧
      onewire_search_next simBusModel bus st =
        (bus', st', some (swalk D st.last_discrepancy 64 0 (asmRom st.rom_no) 0).1) ∧
      romWF st'.rom_no ∧
      asmRom st'.rom_no = (swalk D st.last_discrepancy 64 0 (asmRom st.rom_no) 0).1 ∧
      st'.last_discrepancy = (swalk D st.last_discrepancy 64 0 (asmRom st.rom_no) 0).2 ∧
      st'.last_device_found =
        ((swalk D st.last_discrepancy 64 0 (asmRom st.rom_no) 0).2 == 0) := by
  have hempty : D.isEmpty = false := by
    cases D with
    | nil => exact absurd rfl hne
    | cons a l => rfl
  have hreset : simBusModel.reset bus = (⟨D, D, 0, false⟩, true) := by
    show ((⟨bus.devices, bus.devices, 0, false⟩ : SimBus), !bus.devices.isEmpty) = _
    rw [hdev, hempty]
    rfl
  have hfilt : D.filter (fun b => decide (agreeBelow b (asmRom st.rom_no) 0)) = D := by
    apply List.filter_eq_self.mpr
    intro a _
    apply decide_eq_true
    intro i hi
    exact absurd hi (by omega)
  obtain ⟨bus', rom', heq, hwf', hasm', hdev'⟩ :=
    searchLoop_sim D st.last_discrepancy 64 0 st.rom_no 0 (by omega) hwf
      (by rw [hfilt]; exact hne)
  rw [hfilt] at heq
  have heq2 : searchLoop simBusModel st.last_discrepancy 64 ⟨D, D, 0, false⟩ 1 0 0 1
      st.rom_no
      = (bus', 65, (swalk D st.last_discrepancy 64 0 (asmRom st.rom_no) 0).2, rom') := heq
  have hbyte : rom'.getD 0 0 =
      (swalk D st.last_discrepancy 64 0 (asmRom st.rom_no) 0).1 % 256 := by
    rw [← hasm', asmRom_mod_256 hwf']
  have hbne : (rom'.getD 0 0 == 0) = false := by
    rw [hbyte]
    simpa using hfam _ hgD
  have haddr : assembleAddr rom' =
      (swalk D st.last_discrepancy 64 0 (asmRom st.rom_no) 0).1 := by
    rw [assembleAddr_eq_asmRom hwf', hasm']
  refine ⟨bus', ⟨rom', (swalk D st.last_discrepancy 64 0 (asmRom st.rom_no) 0).2,
    ((swalk D st.last_discrepancy 64 0 (asmRom st.rom_no) 0).2 == 0)⟩,
    hdev', ?_, hwf', hasm', rfl, rfl⟩
  have hw : simBusModel.write (⟨D, D, 0, false⟩ : SimBus) 240 = (⟨D, D, 0, false⟩ : SimBus) :=
    rfl
  simp only [onewire_search_next, hldf, Bool.not_false, if_pos rfl, hreset, Bool.not_true,
    Bool.false_eq_true, if_false, hw, heq2, hbne, haddr]
  cases hz : ((swalk D st.last_discrepancy 64 0 (asmRom st.rom_no) 0).2 == 0) with
  | true => simp [hz]
  | false => simp [hz]

/-- A positive discrepancy index implies a device strictly after `a` in the
search order (the unexplored 1 branch recorded at `ld - 1`). -/
theorem discSpec_pos_gt {D : List Nat} {a ld : Nat} (halt : altAt D a (ld - 1))
    (hld1 : 1 ≤ ld) (hld64 : ld ≤ 64) : ∃ b ∈ D, lexLt a b := by
  obtain ⟨haf, b, hbD, hag, hbt⟩ := halt
  exact ⟨b, hbD, ld - 1, by omega, agreeBelow_symm hag, haf, hbt⟩

/-- First walk of an enumeration (empty buffer, `last_discrepancy = 0`): the
walk returns the `lexLt`-least device and a `last_zero` satisfying `discSpec`. -/
theorem walk_init (D : List Nat) (hne : D ≠ []) (hD : ∀ b ∈ D, b < 2 ^ 64) :
    (swalk D 0 64 0 0 0).1 ∈ D ∧
    (∀ b ∈ D, b = (swalk D 0 64 0 0 0).1 ∨ lexLt (swalk D 0 64 0 0 0).1 b) ∧
    discSpec D (swalk D 0 64 0 0 0).1 (swalk D 0 64 0 0 0).2 := by
  obtain ⟨d, hd⟩ := List.exists_mem_of_ne_nil D hne
  obtain ⟨hmem, _, hmin, hlz⟩ := swalk_fresh D 0 hD 64 0 0 0 (by omega)
    (Nat.two_pow_pos 64) (Nat.le_refl 0) ⟨d, hd, fun i hi => absurd hi (Nat.not_lt_zero i)⟩
  refine ⟨hmem, fun b hb => hmin b hb (fun i hi => absurd hi (Nat.not_lt_zero i)), ?_⟩
  rcases hlz with ⟨h0, hno⟩ | ⟨h1, h2, h3, h4⟩
  · exact Or.inl ⟨h0, fun k hk => hno k (Nat.zero_le k) hk⟩
  · exact Or.inr ⟨h1, h2, h3, h4⟩

/-- Subsequent walk of an enumeration (previous address `a` in the buffer,
`discSpec` holding with a positive index): the walk returns the `lexLt`-least
device after `a` and a `last_zero` satisfying `discSpec`. -/
theorem walk_step (D : List Nat) (hD : ∀ b ∈ D, b < 2 ^ 64) (a ld : Nat) (haD : a ∈ D)
    (hld1 : 1 ≤ ld) (hld64 : ld ≤ 64) (halt : altAt D a (ld - 1))
    (hmax : ∀ k, ld ≤ k → k < 64 → ¬altAt D a k) :
    (swalk D ld 64 0 a 0).1 ∈ D ∧
    lexLt a (swalk D ld 64 0 a 0).1 ∧
    (∀ b ∈ D, lexLt a b → b = (swalk D ld 64 0 a 0).1 ∨ lexLt (swalk D ld 64 0 a 0).1 b) ∧
    discSpec D (swalk D ld 64 0 a 0).1 (swalk D ld 64 0 a 0).2 :=
  swalk_replay D ld hD a haD hld1 hld64 halt hmax 64 0 0 (by omega) (by omega)
    (Or.inl ⟨rfl, fun k hk => absurd hk (Nat.not_lt_zero k)⟩)

/-- The devices after `a` are, up to permutation, `a`'s successor `s` followed
by the devices after `s`. -/
theorem filter_gt_succ (D : List Nat) (hnd : D.Nodup) (a s : Nat) (hsD : s ∈ D)
    (hlt : lexLt a s) (hmin : ∀ b ∈ D, lexLt a b → b = s ∨ lexLt s b) :
    (D.filter fun b => decide (lexLt a b)).Perm
      (s :: D.filter fun b => decide (lexLt s b)) := by
  have hsF : s ∈ D.filter fun b => decide (lexLt a b) :=
    List.mem_filter.mpr ⟨hsD, decide_eq_true hlt⟩
  have hstep : (D.filter fun b => decide (lexLt s b))
      = (D.filter fun b => decide (lexLt a b)).filter (fun b => b != s) := by
    rw [List.filter_filter]
    apply List.filter_congr
    intro b hb
    by_cases h1 : lexLt s b
    · have h2 : lexLt a b := lexLt_trans hlt h1
      have h3 : ¬(b = s) := fun he => lexLt_irrefl s (he ▸ h1)
      simp [h1, h2, h3, bne_iff_ne]
    · by_cases h2 : lexLt a b
      · rcases hmin b hb h2 with he | hgt
        · simp [h1, he, bne_iff_ne, lexLt_irrefl]
        · exact absurd hgt h1
      · simp [h1, h2, bne_iff_ne]
  have hperm1 := List.perm_cons_erase hsF
  rw [List.Nodup.erase_eq_filter (hnd.filter _) s] at hperm1
  rw [hstep]
  exact hperm1

/-- Main enumeration induction: from a state `Good` for the last returned
address `a`, the following calls return exactly the devices after `a` (in some
order fixed by the walk) and then `ONEWIRE_NONE`. -/
theorem search_chain (D : List Nat) (hne : D ≠ []) (hnd : D.Nodup)
    (hD : ∀ b ∈ D, b < 2 ^ 64) (hfam : ∀ b ∈ D, b % 256 ≠ 0) :
    ∀ (n : Nat) (st : onewire_search_t) (a : Nat) (bus : SimBus),
      bus.devices = D → Good D st a → a ∈ D →
      (D.filter fun b => decide (lexLt a b)).length = n →
      ∃ L : List Nat, L.Perm (D.filter fun b => decide (lexLt a b)) ∧
        searchRun (n + 1) bus st = L.map some ++ [none] := by
  intro n
  induction n with
  | zero =>
      intro st a bus hdev hgood haD hlen
      obtain ⟨hwf, hasm, hdisc, hldf⟩ := hgood
      have hld0 : st.last_discrepancy = 0 := by
        by_contra h0
        rcases hdisc with ⟨h, _⟩ | ⟨h1, h2, h3, _⟩
        · exact h0 h
        · obtain ⟨b, hbD, hlt⟩ := discSpec_pos_gt h3 h1 h2
          have : b ∈ D.filter fun b => decide (lexLt a b) :=
            List.mem_filter.mpr ⟨hbD, decide_eq_true hlt⟩
          rw [List.length_eq_zero.mp hlen] at this
          exact absurd this (List.not_mem_nil b)
      have hldt : st.last_device_found = true := by rw [hldf, hld0]; rfl
      refine ⟨[], by rw [List.length_eq_zero.mp hlen], ?_⟩
      simp [searchRun, onewire_search_next, hldt]
  | succ n ih =>
      intro st a bus hdev hgood haD hlen
      obtain ⟨hwf, hasm, hdisc, hldf⟩ := hgood
      rcases hdisc with ⟨h0, hno⟩ | ⟨h1, h2, h3, h4⟩
      · exfalso
        have hnil : D.filter (fun b => decide (lexLt a b)) = [] := by
          apply List.filter_eq_nil_iff.mpr
          intro b hb hdec
          obtain ⟨j, hj, hag, haf, hbt⟩ := of_decide_eq_true hdec
          exact hno j hj ⟨haf, b, hb, agreeBelow_symm hag, hbt⟩
        rw [hnil] at hlen
        exact absurd hlen (by simp)
      obtain ⟨hsD, hlt, hmin, hdisc2⟩ := walk_step D hD a st.last_discrepancy haD h1 h2 h3 h4
      have hgD : (swalk D st.last_discrepancy 64 0 (asmRom st.rom_no) 0).1 ∈ D := by
        rw [hasm]
        exact hsD
      have hldf0 : st.last_device_found = false := by
        rw [hldf]
        exact beq_eq_false_iff_ne.mpr (by omega)
      obtain ⟨bus2, st2, hdev2, heq, hwf2, hasm2, hld2, hldf2⟩ :=
        search_next_sim D hne hfam bus hdev st hldf0 hwf hgD
      rw [hasm] at heq hasm2 hld2 hldf2
      have hgood2 : Good D st2 (swalk D st.last_discrepancy 64 0 a 0).1 :=
        ⟨hwf2, hasm2, by rw [hld2]; exact hdisc2, by rw [hldf2, hld2]⟩
      have hperm := filter_gt_succ D hnd a (swalk D st.last_discrepancy 64 0 a 0).1 hsD hlt hmin
      have hlen2 : (D.filter fun b =>
          decide (lexLt (swalk D st.last_discrepancy 64 0 a 0).1 b)).length = n := by
        have hl := hperm.length_eq
        rw [hlen] at hl
        simp only [List.length_cons] at hl
        omega
      obtain ⟨L2, hpermL2, hrun2⟩ :=
        ih st2 (swalk D st.last_discrepancy 64 0 a 0).1 bus2 hdev2 hgood2 hsD hlen2
      refine ⟨(swalk D st.last_discrepancy 64 0 a 0).1 :: L2, ?_, ?_⟩
      · exact (List.Perm.cons _ hpermL2).trans hperm.symm
      · have hunfold : searchRun (n + 1 + 1) bus st
            = (onewire_search_next simBusModel bus st).2.2 ::
              searchRun (n + 1) (onewire_search_next simBusModel bus st).1
                (onewire_search_next simBusModel bus st).2.1 := rfl
        rw [hunfold, heq]
        show some (swalk D st.last_discrepancy 64 0 a 0).1 :: searchRun (n + 1) bus2 st2 = _
        rw [hrun2]
        rfl

/-- C1: For every bus presenting a fixed nonempty set of distinct 64-bit
addresses, each with a nonzero family-code byte, repeated calls to
`onewire_search_next` starting from a state freshly initialized by
`onewire_search_start` return every address exactly once (in the walk order)
and then `ONEWIRE_NONE`.  Without the nonzero-family-code hypothesis the claim
fails: see the counterexample with the single address 0. -/
theorem search_enumerates_all (D : List Nat) (hne : D ≠ []) (hnd : D.Nodup)
    (hD : ∀ a ∈ D, a < 2 ^ 64) (hfam : ∀ a ∈ D, a % 256 ≠ 0) :
    ∃ L : List Nat, L.Perm D ∧
      searchRun (D.length + 1) ⟨D, [], 0, false⟩ onewire_search_start =
        L.map some ++ [none] := by
  obtain ⟨hm, hmin, hdisc⟩ := walk_init D hne hD
  have hwf0 : romWF onewire_search_start.rom_no := ⟨rfl, by decide⟩
  have hgD : (swalk D onewire_search_start.last_discrepancy 64 0
      (asmRom onewire_search_start.rom_no) 0).1 ∈ D := hm
  obtain ⟨bus2, st2, hdev2, heq, hwf2, hasm2, hld2, hldf2⟩ :=
    search_next_sim D hne hfam ⟨D, [], 0, false⟩ rfl onewire_search_start rfl hwf0 hgD
  have hconv : swalk D onewire_search_start.last_discrepancy 64 0
      (asmRom onewire_search_start.rom_no) 0 = swalk D 0 64 0 0 0 := rfl
  rw [hconv] at heq hasm2 hld2 hldf2
  have hgood2 : Good D st2 (swalk D 0 64 0 0 0).1 :=
    ⟨hwf2, hasm2, by rw [hld2]; exact hdisc, by rw [hldf2, hld2]⟩
  have hmF : (D.filter fun b => decide (lexLt (swalk D 0 64 0 0 0).1 b))
      = D.filter (fun b => b != (swalk D 0 64 0 0 0).1) := by
    apply List.filter_congr
    intro b hb
    by_cases h1 : b = (swalk D 0 64 0 0 0).1
    · simp [h1, lexLt_irrefl, bne_iff_ne]
    · rcases hmin b hb with he | hgt
      · exact absurd he h1
      · simp [h1, hgt, bne_iff_ne]
  have hmD : D.Perm ((swalk D 0 64 0 0 0).1 ::
      (D.filter fun b => decide (lexLt (swalk D 0 64 0 0 0).1 b))) := by
    rw [hmF, ← List.Nodup.erase_eq_filter hnd]
    exact List.perm_cons_erase hm
  have hlenm : (D.filter fun b => decide (lexLt (swalk D 0 64 0 0 0).1 b)).length + 1
      = D.length := by
    have hl := hmD.length_eq
    simp only [List.length_cons] at hl
    omega
  obtain ⟨L2, hpermL2, hrun2⟩ := search_chain D hne hnd hD hfam
    (D.filter fun b => decide (lexLt (swalk D 0 64 0 0 0).1 b)).length
    st2 (swalk D 0 64 0 0 0).1 bus2 hdev2 hgood2 hm rfl
  refine ⟨(swalk D 0 64 0 0 0).1 :: L2, (List.Perm.cons _ hpermL2).trans hmD.symm, ?_⟩
  rw [← hlenm]
  have hunfold : searchRun
        ((D.filter fun b => decide (lexLt (swalk D 0 64 0 0 0).1 b)).length + 1 + 1)
        ⟨D, [], 0, false⟩ onewire_search_start
      = (onewire_search_next simBusModel ⟨D, [], 0, false⟩ onewire_search_start).2.2 ::
        searchRun ((D.filter fun b => decide (lexLt (swalk D 0 64 0 0 0).1 b)).length + 1)
          (onewire_search_next simBusModel ⟨D, [], 0, false⟩ onewire_search_start).1
          (onewire_search_next simBusModel ⟨D, [], 0, false⟩ onewire_search_start).2.1 := rfl
  rw [hunfold, heq]
  show some (swalk D 0 64 0 0 0).1 :: searchRun _ bus2 st2 = _
  rw [hrun2]
  rfl

/-- Witness for C1: the theorem applied to the one-device bus holding
address 1 (nonzero family code). -/
theorem search_enumerates_all_witness :
    ∃ L : List Nat, L.Perm [1] ∧
      searchRun 2 ⟨[1], [], 0, false⟩ onewire_search_start = L.map some ++ [none] :=
  search_enumerates_all [1] (by decide) (by decide) (by decide) (by decide)

/-- Counterexample to C1 as stated: a bus presenting the single 64-bit
address 0 (a valid distinct address, but with family-code byte 0) is never
enumerated — both calls return `ONEWIRE_NONE` instead of the address followed
by `ONEWIRE_NONE`, because `onewire_search_next` (onewire.c lines 288-293)
discards any completed walk whose `rom_no[0]` is zero. -/
theorem search_misses_zero_family_device :
    searchRun 2 ⟨[0], [], 0, false⟩ onewire_search_start = [none, none] ∧
    ¬searchRun 2 ⟨[0], [], 0, false⟩ onewire_search_start = [some 0, none] :=
  ⟨by decide, by decide⟩

end OneWire
